import Mathlib

/-!
Verification of the vocabulary acquisition and review-scheduling engine of the
albanian-page-tool repository.

The embedding translates:
  * the data model (`src/App.tsx`, interfaces `VocabContext`, `VocabWord`,
    `ReviewSession`, `DailyStats`, `WordReview`);
  * the persistence service (`src/services/indexedDB.ts`): `addVocabWord`,
    `getVocabWords`, `updateVocabCard`, `toggleIgnoreWord`,
    `getWordsDueForReview`, `saveReviewSession`, `getDailyStats`, `getStreak`,
    `updateDailyStats`, `saveWordReview`;
  * the review session controller (`src/pages/ReviewPage.tsx`):
    `loadWordsToReview`, `startSession`, `handleRating`, `handleIgnoreWord`,
    `handleNextContext`, `handlePrevContext`.

Modelling conventions:
  * IndexedDB object stores become association lists; `store.put` is
    upsert-by-key (`putAssoc`), `store.add`/append-only stores become list
    append, `store.get` is `lookupAssoc`.
  * Millisecond timestamps are `Nat`.  Calendar dates (the `YYYY-MM-DD`
    strings produced by `toISOString().split('T')[0]`) are modelled as `Int`
    day numbers: ISO date strings compare lexicographically exactly as their
    day numbers compare, and walking to the previous calendar day is
    subtraction by one, with no lower bound.
  * The loosely typed `fsrsCard: any` blob is `Option FsrsCard`; its `due`
    field, which the code tests for presence, is `Option Nat`.
  * Asynchronous storage calls are sequenced explicitly; a handler takes an
    injected failure oracle (`StorageOp → Bool`) so that a storage failure at
    any await can be expressed.  React state updates inside a handler are
    modelled by the final state value the handler's setters produce; reads of
    state variables inside one handler invocation see the values captured at
    entry (the closure semantics of the component), which is why
    `handleRating` checks completion against the queue length from before the
    `Again` re-insertion.
  * The `Math.random()` based bucket shuffles are injected permutation
    parameters.
-/

namespace PageTool

/-- One recorded encounter of a word (interface `VocabContext`, src/App.tsx). -/
structure VocabContext where
  sentenceId : String
  sentenceText : String
  sentenceTranslation : String
  meaning : String
  pageId : String
  seenAt : Nat
deriving DecidableEq, Repr

/-- The scheduling card blob stored on a word.  In the source it is `any`;
the engine reads `state` (0 = New, 1 = Learning, 2 = Review, 3 = Relearning)
and `due`.  `due` is optional because the code guards against its absence. -/
structure FsrsCard where
  state : Nat
  due : Option Nat
deriving DecidableEq, Repr

/-- Interface `VocabWord` (src/App.tsx).  `fsrsCard` is optional because the
source stores it untyped and the code guards against its absence. -/
structure VocabWord where
  word : String
  language : String
  addedAt : Nat
  ignored : Bool
  fsrsCard : Option FsrsCard
  contexts : List VocabContext
deriving DecidableEq, Repr

/-- Interface `ReviewSession` (src/App.tsx): the persisted summary record of
a completed review session. -/
structure ReviewSession where
  id : String
  language : String
  date : Nat
  wordCount : Nat
  duration : Nat
deriving DecidableEq, Repr

/-- Interface `DailyStats` (src/App.tsx), keyed by `(date, language)`. -/
structure DailyStats where
  date : Int
  language : String
  reviewCount : Nat
  wordsAdded : Nat
  wordsMastered : Nat
deriving DecidableEq, Repr

/-- Interface `WordReview` (src/App.tsx): one immutable review event. -/
structure WordReview where
  id : String
  word : String
  language : String
  rating : Nat
  date : Nat
  reviewedAt : Int
deriving DecidableEq, Repr

/-- Lookup by key in an association list (IndexedDB `store.get(key)`). -/
def lookupAssoc {κ α : Type} [DecidableEq κ] (k : κ) : List (κ × α) → Option α
  | [] => none
  | (k', v) :: rest => if k' = k then some v else lookupAssoc k rest

/-- Upsert by key in an association list (IndexedDB `store.put(value)` with
an in-line key path): replaces the entry if the key exists, appends it
otherwise. -/
def putAssoc {κ α : Type} [DecidableEq κ] (k : κ) (v : α) : List (κ × α) → List (κ × α)
  | [] => [(k, v)]
  | (k', v') :: rest => if k' = k then (k, v) :: rest else (k', v') :: putAssoc k v rest

/-- The IndexedDB database restricted to the vocabulary engine's stores:
`vocab` (keyed by `word_language`), `dailyStats` (keyed by
`(date, language)`), `wordReviews` and `reviewSessions` (append-only). -/
structure DB where
  vocab : List (String × VocabWord)
  dailyStats : List ((Int × String) × DailyStats)
  wordReviews : List WordReview
  reviewSessions : List ReviewSession
deriving DecidableEq, Repr

def emptyDB : DB := ⟨[], [], [], []⟩

/-- JavaScript's `toLowerCase()`: lowercase character by character.  (Defined
over the character list, extensionally `String.toLower`, so that concrete
instances compute by `decide`.) -/
def toLowerCase (s : String) : String := ⟨s.data.map Char.toLower⟩

/-- The composite key of the vocab store: `` `${word.toLowerCase()}_${language}` ``. -/
def word_key (word language : String) : String :=
  toLowerCase word ++ "_" ++ language

/-- The two counter fields `updateDailyStats` can increment. -/
inductive StatField
  | reviewCount
  | wordsAdded
deriving DecidableEq, Repr

/-- Private method `updateDailyStats` (indexedDB.ts): creates the day's row
if absent (the code initializes `reviewCount` and `wordsAdded` to 0 and
leaves `wordsMastered` unset, modelled as 0) and adds `increment` to the
named field.  `today` is the current calendar date. -/
def updateDailyStats (db : DB) (today : Int) (language : String)
    (field : StatField) (increment : Nat) : DB :=
  let key : Int × String := (today, language)
  let stats :=
    match lookupAssoc key db.dailyStats with
    | some s => s
    | none =>
        { date := today, language := language, reviewCount := 0,
          wordsAdded := 0, wordsMastered := 0 }
  let stats' :=
    match field with
    | .reviewCount => { stats with reviewCount := stats.reviewCount + increment }
    | .wordsAdded => { stats with wordsAdded := stats.wordsAdded + increment }
  { db with dailyStats := putAssoc key stats' db.dailyStats }

/-- Method `addVocabWord` (indexedDB.ts): case-insensitive key lookup; if the
word exists, appends the context unless one with the same `sentenceId` is
already stored; if absent, creates the word (text lowercased, `ignored`
false, `addedAt` now, the given card, the single context) and increments
today's `wordsAdded` stat. -/
def addVocabWord (db : DB) (nowMs : Nat) (today : Int) (word language : String)
    (context : VocabContext) (fsrsCard : Option FsrsCard) : DB :=
  let key := word_key word language
  match lookupAssoc key db.vocab with
  | some existing =>
      let contextExists := existing.contexts.any (fun c => c.sentenceId == context.sentenceId)
      let vocabWord :=
        { existing with
            contexts := if contextExists then existing.contexts
                        else existing.contexts ++ [context] }
      { db with vocab := putAssoc key vocabWord db.vocab }
  | none =>
      let vocabWord : VocabWord :=
        { word := toLowerCase word, language := language, addedAt := nowMs,
          ignored := false, fsrsCard := fsrsCard, contexts := [context] }
      let db1 := { db with vocab := putAssoc key vocabWord db.vocab }
      updateDailyStats db1 today language .wordsAdded 1

/-- Method `getVocabWords` (indexedDB.ts): all stored words, filtered by
language when one other than "all" is given, and by ignored status when
`includeIgnored` is false. -/
def getVocabWords (db : DB) (language : Option String) (includeIgnored : Bool) :
    List VocabWord :=
  let words := db.vocab.map Prod.snd
  let words :=
    match language with
    | some l => if l ≠ "all" then words.filter (fun w => w.language == l) else words
    | none => words
  if includeIgnored then words else words.filter (fun w => !w.ignored)

/-- Error surfaced when an operation targets a word absent from the store
(the code rejects with `new Error('Vocab word not found')`). -/
inductive StoreErr
  | notFound
deriving DecidableEq, Repr

/-- Method `updateVocabCard` (indexedDB.ts): replaces the stored word's
`fsrsCard`; rejects with not-found when the key is absent, leaving the store
untouched (no put is issued on that path). -/
def updateVocabCard (db : DB) (word language : String) (fsrsCard : Option FsrsCard) :
    DB × Option StoreErr :=
  let key := word_key word language
  match lookupAssoc key db.vocab with
  | some existing =>
      ({ db with vocab := putAssoc key { existing with fsrsCard := fsrsCard } db.vocab }, none)
  | none => (db, some .notFound)

/-- Method `toggleIgnoreWord` (indexedDB.ts): flips the stored word's
`ignored` flag; rejects with not-found when the key is absent. -/
def toggleIgnoreWord (db : DB) (word language : String) : DB × Option StoreErr :=
  let key := word_key word language
  match lookupAssoc key db.vocab with
  | some existing =>
      ({ db with vocab := putAssoc key { existing with ignored := !existing.ignored } db.vocab }, none)
  | none => (db, some .notFound)

/-- Method `getWordsDueForReview` (indexedDB.ts): non-ignored words whose
card is present, has a due timestamp, and is due no later than now. -/
def getWordsDueForReview (db : DB) (language : Option String) (now : Nat) :
    List VocabWord :=
  (getVocabWords db language false).filter fun w =>
    match w.fsrsCard with
    | none => false
    | some card =>
        match card.due with
        | none => false
        | some d => d ≤ now

/-- Method `saveWordReview` (indexedDB.ts): appends the review event and
increments today's `reviewCount` stat by 1. -/
def saveWordReview (db : DB) (today : Int) (review : WordReview) : DB :=
  let db1 := { db with wordReviews := db.wordReviews ++ [review] }
  updateDailyStats db1 today review.language .reviewCount 1

/-- Method `saveReviewSession` (indexedDB.ts): appends the session record and
increments today's `reviewCount` stat by the session's whole word count. -/
def saveReviewSession (db : DB) (today : Int) (session : ReviewSession) : DB :=
  let db1 := { db with reviewSessions := db.reviewSessions ++ [session] }
  updateDailyStats db1 today session.language .reviewCount session.wordCount

/-- Method `getDailyStats` (indexedDB.ts) as used by `getStreak` (no date
range): all stat rows, filtered by language when one other than "all" is
given. -/
def getDailyStats (db : DB) (language : Option String) : List DailyStats :=
  let stats := db.dailyStats.map Prod.snd
  match language with
  | some l => if l ≠ "all" then stats.filter (fun s => s.language == l) else stats
  | none => stats

/-- The walk inside `getStreak` (indexedDB.ts): over the date-descending stat
list, count a stat whose date equals the expected date and has a positive
review count and step the expected date back one day; stop at the first stat
strictly before the expected date; skip anything else. -/
def streakLoop : List DailyStats → Int → Nat → Nat
  | [], _, streak => streak
  | stat :: rest, expected, streak =>
      if stat.date = expected ∧ 0 < stat.reviewCount then
        streakLoop rest (expected - 1) (streak + 1)
      else if stat.date < expected then
        streak
      else
        streakLoop rest expected streak

/-- Method `getStreak` (indexedDB.ts): 0 on an empty stat list, otherwise the
walk over the stats sorted descending by date, starting from today. -/
def getStreak (db : DB) (language : Option String) (today : Int) : Nat :=
  let stats := getDailyStats db language
  if stats.isEmpty then 0
  else streakLoop (stats.mergeSort (fun a b => decide (b.date ≤ a.date))) today 0

/-- The four FSRS ratings (`Rating` of ts-fsrs, re-exported by the fsrs
service). -/
inductive Rating
  | again
  | hard
  | good
  | easy
deriving DecidableEq, Repr

/-- The numeric value of a rating as stored in a `WordReview` (ts-fsrs uses
Again = 1, Hard = 2, Good = 3, Easy = 4). -/
def ratingValue : Rating → Nat
  | .again => 1
  | .hard => 2
  | .good => 3
  | .easy => 4

/-- Modelled from the spec: the card-state transition of the CardScheduler
(spec section 4.1), whose implementation lives in the external ts-fsrs
library wrapped by the fsrs service and is not part of this repository's
sources.  New moves to Learning on a first rating, or to Review on the
strongest one; Learning and Relearning move to Review after a successful
rating and otherwise stay; Review lapses to Relearning on Again.  States are
numbered as the code reads them: 0 New, 1 Learning, 2 Review, 3 Relearning. -/
def scheduleState (state : Nat) (rating : Rating) : Nat :=
  if state = 0 then
    match rating with
    | .easy => 2
    | _ => 1
  else if state = 1 ∨ state = 3 then
    match rating with
    | .good => 2
    | .easy => 2
    | _ => state
  else
    match rating with
    | .again => 3
    | _ => 2

/-- Modelled from the spec: `fsrsService.reviewWord` (the ts-fsrs scheduler,
external to this repository).  It returns the card updated for the chosen
rating; the due date is strictly in the future (spec section 4.1), with the
interval mathematics out of the spec's scope (section 1 non-goals), so a
representative interval of one is used.  An absent card blob is treated as a
fresh New card. -/
def fsrsReviewWord (card : Option FsrsCard) (rating : Rating) (now : Nat) : FsrsCard :=
  let st := match card with
    | some c => c.state
    | none => 0
  { state := scheduleState st rating, due := some (now + 1) }

/-- Bucket tag of a queue entry (`CardBucket` in ReviewPage.tsx). -/
inductive Bucket
  | new
  | learning
  | review
deriving DecidableEq, Repr

/-- A queue entry (`CardInQueue` in ReviewPage.tsx, a `VocabWord` extended
with its bucket tag). -/
structure CardInQueue where
  vw : VocabWord
  bucket : Bucket
deriving DecidableEq, Repr

/-- The vocab-store key of a queue entry. -/
def queueKey (c : CardInQueue) : String :=
  word_key c.vw.word c.vw.language

/-- The React state of the ReviewPage component that the engine logic reads
and writes (presentation-only state such as the open menu is omitted). -/
structure SessionState where
  reviewQueue : List CardInQueue
  currentIndex : Nat
  contextIndex : Nat
  showAnswer : Bool
  sessionStartTime : Option Nat
  reviewedCount : Nat
  sessionComplete : Bool
deriving DecidableEq, Repr

/-- The test `!w.fsrsCard || w.fsrsCard.state === 0` partitioning due words
into the new bucket (ReviewPage.tsx, `loadWordsToReview`). -/
def isNewCard (w : VocabWord) : Bool :=
  match w.fsrsCard with
  | none => true
  | some card => card.state == 0

/-- The hard-coded daily new-card cap `MAX_NEW_CARDS` (ReviewPage.tsx). -/
def MAX_NEW_CARDS : Nat := 20

/-- The new-bucket candidates of `loadWordsToReview`: due words with an
absent card or state New, tagged `new`. -/
def newCandidates (db : DB) (selectedLanguage : String) (now : Nat) :
    List CardInQueue :=
  ((getWordsDueForReview db (some selectedLanguage) now).filter isNewCard).map
    (fun w => ⟨w, .new⟩)

/-- The review-bucket candidates of `loadWordsToReview`: due words with a
present card in a state other than New, tagged `review`. -/
def reviewCandidates (db : DB) (selectedLanguage : String) (now : Nat) :
    List CardInQueue :=
  ((getWordsDueForReview db (some selectedLanguage) now).filter
      (fun w => !isNewCard w)).map
    (fun w => ⟨w, .review⟩)

/-- The sort `newCards.sort((a, b) => b.contexts.length - a.contexts.length)`
(descending by context count; JavaScript's sort is stable, as is merge
sort, so ties keep their relative order deterministically). -/
def sortByContextsDesc (l : List CardInQueue) : List CardInQueue :=
  l.mergeSort (fun a b => decide (b.vw.contexts.length ≤ a.vw.contexts.length))

/-- The cap step of `loadWordsToReview`: when more than `MAX_NEW_CARDS` new
candidates exist, sort them descending by context count and keep the first
`MAX_NEW_CARDS`. -/
def cappedNewCards (l : List CardInQueue) : List CardInQueue :=
  if MAX_NEW_CARDS < l.length then (sortByContextsDesc l).take MAX_NEW_CARDS else l

/-- Function `loadWordsToReview` (ReviewPage.tsx): build the queue as capped,
shuffled new bucket followed by the shuffled review bucket and reset the
session cursor state.  The two `sort(() => Math.random() - 0.5)` shuffles are
injected as function parameters; `sessionStartTime` is not touched by the
code, so the previous value is a parameter. -/
def loadWordsToReview (db : DB) (selectedLanguage : String) (now : Nat)
    (shuffleNew shuffleReview : List CardInQueue → List CardInQueue)
    (sessionStartTime0 : Option Nat) : SessionState :=
  { reviewQueue :=
      shuffleNew (cappedNewCards (newCandidates db selectedLanguage now)) ++
        shuffleReview (reviewCandidates db selectedLanguage now)
    currentIndex := 0
    contextIndex := 0
    showAnswer := false
    sessionStartTime := sessionStartTime0
    reviewedCount := 0
    sessionComplete := false }

/-- Function `startSession` (ReviewPage.tsx): records the start time. -/
def startSession (s : SessionState) (now : Nat) : SessionState :=
  { s with sessionStartTime := some now }

/-- Function `handleNextContext` (ReviewPage.tsx): cycle to the next context
of the current card without advancing the queue. -/
def handleNextContext (s : SessionState) : SessionState :=
  match s.reviewQueue[s.currentIndex]? with
  | some c =>
      if s.contextIndex < c.vw.contexts.length - 1 then
        { s with contextIndex := s.contextIndex + 1 }
      else s
  | none => s

/-- Function `handlePrevContext` (ReviewPage.tsx). -/
def handlePrevContext (s : SessionState) : SessionState :=
  if 0 < s.contextIndex then { s with contextIndex := s.contextIndex - 1 } else s

/-- The awaited storage calls of `handleRating`, in order, for failure
injection. -/
inductive StorageOp
  | opUpdateCard
  | opSaveReview
  | opSaveSession
deriving DecidableEq, Repr

/-- The failure oracle under which every storage call succeeds. -/
def noFail : StorageOp → Bool := fun _ => false

/-- Result of one handler invocation: the component state after its setters,
the database after its committed writes, and whether an awaited call threw
(aborting the rest of the handler). -/
structure HandlerResult where
  state : SessionState
  db : DB
  aborted : Bool
deriving DecidableEq, Repr

/-- Function `handleRating` (ReviewPage.tsx).  Sequence: schedule the card,
persist it, append the word review (which also bumps today's review count),
on Again re-insert a learning-tagged copy at `min(currentIndex + 4, length)`,
then advance.  The completion test compares against the queue length captured
at entry (the closure value), not the re-inserted queue, and the persisted
session record's `wordCount` is that same captured length.  A failed await
keeps every effect already applied and skips the rest. -/
def handleRating (fail : StorageOp → Bool) (now : Nat) (today : Int)
    (selectedLanguage reviewId sessionId : String) (rating : Rating)
    (s : SessionState) (db : DB) : HandlerResult :=
  match s.reviewQueue[s.currentIndex]? with
  | none => ⟨s, db, false⟩
  | some currentCard =>
      let card := fsrsReviewWord currentCard.vw.fsrsCard rating now
      if fail .opUpdateCard then ⟨s, db, true⟩ else
      match updateVocabCard db currentCard.vw.word currentCard.vw.language (some card) with
      | (db1, some _) => ⟨s, db1, true⟩
      | (db1, none) =>
          if fail .opSaveReview then ⟨s, db1, true⟩ else
          let review : WordReview :=
            { id := reviewId, word := currentCard.vw.word,
              language := currentCard.vw.language, rating := ratingValue rating,
              date := now, reviewedAt := today }
          let db2 := saveWordReview db1 today review
          let s1 :=
            if rating = .again then
              let updatedCard : CardInQueue :=
                ⟨{ currentCard.vw with fsrsCard := some card }, .learning⟩
              let insertPosition := min (s.currentIndex + 4) s.reviewQueue.length
              { s with reviewQueue := s.reviewQueue.insertIdx insertPosition updatedCard }
            else s
          let nextIndex := s.currentIndex + 1
          let s2 := { s1 with reviewedCount := s.reviewedCount + 1 }
          if s.reviewQueue.length ≤ nextIndex then
            match s.sessionStartTime with
            | some startTime =>
                if fail .opSaveSession then ⟨s2, db2, true⟩ else
                let session : ReviewSession :=
                  { id := sessionId, language := selectedLanguage, date := now,
                    wordCount := s.reviewQueue.length,
                    duration := (now - startTime) / 1000 }
                ⟨{ s2 with sessionComplete := true }, saveReviewSession db2 today session, false⟩
            | none => ⟨{ s2 with sessionComplete := true }, db2, false⟩
          else
            ⟨{ s2 with currentIndex := nextIndex, contextIndex := 0, showAnswer := false },
             db2, false⟩

/-- Function `handleIgnoreWord` (ReviewPage.tsx): toggle the current word's
ignored flag in the store, remove the entry at the current index from the
queue (`filter((_, i) => i !== currentIndex)`, which is exactly `eraseIdx`),
and, if the queue became empty, complete the session persisting a record
whose `wordCount` is the number of words actually reviewed. -/
def handleIgnoreWord (now : Nat) (today : Int) (selectedLanguage sessionId : String)
    (s : SessionState) (db : DB) : HandlerResult :=
  match s.reviewQueue[s.currentIndex]? with
  | none => ⟨s, db, false⟩
  | some ignoredCard =>
      match toggleIgnoreWord db ignoredCard.vw.word ignoredCard.vw.language with
      | (db1, some _) => ⟨s, db1, true⟩
      | (db1, none) =>
          let updatedQueue := s.reviewQueue.eraseIdx s.currentIndex
          let s1 := { s with reviewQueue := updatedQueue }
          if updatedQueue.length = 0 then
            match s.sessionStartTime with
            | some startTime =>
                let session : ReviewSession :=
                  { id := sessionId, language := selectedLanguage, date := now,
                    wordCount := s.reviewedCount,
                    duration := (now - startTime) / 1000 }
                ⟨{ s1 with sessionComplete := true }, saveReviewSession db1 today session, false⟩
            | none => ⟨{ s1 with sessionComplete := true }, db1, false⟩
          else
            ⟨{ s1 with contextIndex := 0, showAnswer := false }, db1, false⟩

/-- One mutation of the persistent store through the service interface. -/
inductive DBStep : DB → DB → Prop
  | add (db : DB) (nowMs : Nat) (today : Int) (word language : String)
      (context : VocabContext) (fsrsCard : Option FsrsCard) :
      DBStep db (addVocabWord db nowMs today word language context fsrsCard)
  | updateCard (db : DB) (word language : String) (fsrsCard : Option FsrsCard) :
      DBStep db (updateVocabCard db word language fsrsCard).1
  | toggleIgnore (db : DB) (word language : String) :
      DBStep db (toggleIgnoreWord db word language).1
  | review (db : DB) (today : Int) (review : WordReview) :
      DBStep db (saveWordReview db today review)
  | session (db : DB) (today : Int) (session : ReviewSession) :
      DBStep db (saveReviewSession db today session)

/-- A store state reachable from the empty database through the service
interface. -/
def ReachableDB (db : DB) : Prop :=
  Relation.ReflTransGen DBStep emptyDB db

/-- The context-deduplication invariant: no stored word holds two contexts
with the same sentence fingerprint. -/
def DedupInv (db : DB) : Prop :=
  ∀ kv ∈ db.vocab, ((kv.2.contexts.map (fun c => c.sentenceId)).Nodup)

/-- The vocab store is well keyed: every row sits under the composite key of
its own word and language, and keys are unique (IndexedDB enforces key
uniqueness; rows are created with lowercased word text matching their key). -/
def CanonicalKeys (db : DB) : Prop :=
  (∀ kv ∈ db.vocab, kv.1 = word_key kv.2.word kv.2.language) ∧
    (db.vocab.map Prod.fst).Nodup

/-- One user interaction during a review session, together with its storage
effects.  Interactions are only possible while the session is not complete
(the completion screen replaces the card UI).  A rate call's awaited storage
writes can fail, so the rate step carries a failure oracle; the `oracles`
parameter selects which failure patterns the relation admits (all of them,
or only the failure-free oracle). -/
inductive SessStep (selectedLanguage : String)
    (oracles : (StorageOp → Bool) → Prop) :
    SessionState × DB → SessionState × DB → Prop
  | start (s : SessionState) (db : DB) (now : Nat) :
      s.sessionComplete = false →
      SessStep selectedLanguage oracles (s, db) (startSession s now, db)
  | nextContext (s : SessionState) (db : DB) :
      s.sessionComplete = false →
      SessStep selectedLanguage oracles (s, db) (handleNextContext s, db)
  | prevContext (s : SessionState) (db : DB) :
      s.sessionComplete = false →
      SessStep selectedLanguage oracles (s, db) (handlePrevContext s, db)
  | reveal (s : SessionState) (db : DB) :
      s.sessionComplete = false →
      SessStep selectedLanguage oracles (s, db) ({ s with showAnswer := true }, db)
  | rate (s : SessionState) (db : DB) (fail : StorageOp → Bool) (now : Nat)
      (today : Int) (reviewId sessionId : String) (rating : Rating) :
      s.sessionComplete = false → oracles fail →
      SessStep selectedLanguage oracles (s, db)
        ((handleRating fail now today selectedLanguage reviewId sessionId rating s db).state,
         (handleRating fail now today selectedLanguage reviewId sessionId rating s db).db)
  | ignore (s : SessionState) (db : DB) (now : Nat) (today : Int) (sessionId : String) :
      s.sessionComplete = false →
      SessStep selectedLanguage oracles (s, db)
        ((handleIgnoreWord now today selectedLanguage sessionId s db).state,
         (handleIgnoreWord now today selectedLanguage sessionId s db).db)

/-- The oracle set admitting every failure pattern. -/
def anyOracle : (StorageOp → Bool) → Prop := fun _ => True

/-- The oracle set of failure-free sessions: every awaited write succeeds. -/
def noFailOnly : (StorageOp → Bool) → Prop := fun f => f = noFail

/-- The not-yet-visited part of the queue. -/
def remaining (s : SessionState) : List CardInQueue :=
  s.reviewQueue.drop s.currentIndex

/-- Every not-yet-visited queue entry's key is present in the vocab store
(this holds whatever storage failures occurred). -/
def SessKeysPresent (x : SessionState × DB) : Prop :=
  ∀ c ∈ remaining x.1, (lookupAssoc (queueKey c) x.2.vocab).isSome

/-- Session invariant of failure-free sessions: while the session is
running, the not-yet-visited queue entries are for pairwise distinct store
keys, and every not-yet-visited entry's key is present in the vocab store.
(The first part is specific to failure-free sessions: an aborted completion
leaves a re-inserted Again copy ahead of an unadvanced pointer, duplicating
the current word's key.) -/
def SessInv (x : SessionState × DB) : Prop :=
  (x.1.sessionComplete = false → ((remaining x.1).map queueKey).Nodup) ∧
    SessKeysPresent x

/-- The membership test in `getStreak`'s specification: some stat row of the
list sits on the given date with a positive review count. -/
def hasReviewOn (stats : List DailyStats) (d : Int) : Bool :=
  stats.any (fun st => st.date == d && decide (0 < st.reviewCount))

/-- A sample context for concrete checks. -/
def sampleContext : VocabContext :=
  { sentenceId := "f1", sentenceText := "t", sentenceTranslation := "tr",
    meaning := "m", pageId := "p", seenAt := 7 }

/-- A sample stored word with a due New-state card. -/
def maceNew : VocabWord :=
  { word := "mace", language := "sq", addedAt := 0, ignored := false,
    fsrsCard := some { state := 0, due := some 5 }, contexts := [sampleContext] }

/-- A sample store holding only `maceNew`. -/
def dbMace : DB :=
  { vocab := [("mace_sq", maceNew)], dailyStats := [], wordReviews := [],
    reviewSessions := [] }

/-- The identity shuffle, a permissible outcome of the random shuffles. -/
def idShuffle : List CardInQueue → List CardInQueue := fun l => l

/-- A family of distinct due New-state words for concrete queue checks. -/
def aWord (n : Nat) : VocabWord :=
  { word := ⟨List.replicate (n + 1) 'a'⟩, language := "sq", addedAt := 0,
    ignored := false, fsrsCard := some { state := 0, due := some 0 },
    contexts := [sampleContext] }

/-- A store with 21 due New-state words, one over the new-card cap. -/
def db21 : DB :=
  { vocab := (List.range 21).map (fun n => (word_key (aWord n).word "sq", aWord n))
    dailyStats := []
    wordReviews := []
    reviewSessions := [] }

/-- A started one-card session over `maceNew`. -/
def sessionOne : SessionState :=
  { reviewQueue := [⟨maceNew, .new⟩], currentIndex := 0, contextIndex := 0,
    showAnswer := true, sessionStartTime := some 1000, reviewedCount := 0,
    sessionComplete := false }

/-- The one-card session of the C4 scenario: queue loaded from `dbMace` and
the session started. -/
def c4start : SessionState :=
  startSession (loadWordsToReview dbMace "sq" 1000 idShuffle idShuffle none) 2000

/-- Failure oracle making exactly the review-event write fail. -/
def failSaveReview : StorageOp → Bool := fun o => decide (o = StorageOp.opSaveReview)

/-- Failure oracle making exactly the session-record write fail. -/
def failSaveSession : StorageOp → Bool := fun o => decide (o = StorageOp.opSaveSession)

/-- The session state after rating the single card of `c4start` Again while
the session-record write fails: the learning-copy splice and the reviewed
count committed, the pointer never advanced, and completion never ran. -/
def sessionAfterFail : SessionState :=
  (handleRating failSaveSession 3000 7 "sq" "r1" "s1" Rating.again c4start dbMace).state

/-- The store state matching `sessionAfterFail`. -/
def dbAfterFail : DB :=
  (handleRating failSaveSession 3000 7 "sq" "r1" "s1" Rating.again c4start dbMace).db

/-- A sample store with review stats on days 2 and 1 and a gap before. -/
def dbStreak : DB :=
  { vocab := []
    dailyStats :=
      [((2, "sq"),
        { date := 2, language := "sq", reviewCount := 1, wordsAdded := 0, wordsMastered := 0 }),
       ((1, "sq"),
        { date := 1, language := "sq", reviewCount := 1, wordsAdded := 0, wordsMastered := 0 })]
    wordReviews := []
    reviewSessions := [] }

/-!  Association-list lemmas. -/

theorem lookupAssoc_putAssoc_self {κ α : Type} [DecidableEq κ] (k : κ) (v : α)
    (l : List (κ × α)) : lookupAssoc k (putAssoc k v l) = some v := by
  induction l with
  | nil => simp [putAssoc, lookupAssoc]
  | cons kv rest ih =>
      obtain ⟨k', v'⟩ := kv
      by_cases h : k' = k
      · simp [putAssoc, lookupAssoc, h]
      · simp [putAssoc, lookupAssoc, h, ih]

theorem lookupAssoc_putAssoc_ne {κ α : Type} [DecidableEq κ] {k k' : κ} (v : α)
    (l : List (κ × α)) (h : k' ≠ k) :
    lookupAssoc k' (putAssoc k v l) = lookupAssoc k' l := by
  have hne : k ≠ k' := Ne.symm h
  induction l with
  | nil => simp [putAssoc, lookupAssoc, hne]
  | cons kv rest ih =>
      obtain ⟨k₀, v₀⟩ := kv
      by_cases h₀ : k₀ = k
      · subst h₀
        simp [putAssoc, lookupAssoc, hne]
      · simp [putAssoc, lookupAssoc, h₀, ih]

theorem isSome_lookupAssoc_putAssoc {κ α : Type} [DecidableEq κ] (k k' : κ) (v : α)
    (l : List (κ × α)) (h : (lookupAssoc k' l).isSome) :
    (lookupAssoc k' (putAssoc k v l)).isSome := by
  by_cases hk : k' = k
  · subst hk
    simp [lookupAssoc_putAssoc_self]
  · rwa [lookupAssoc_putAssoc_ne v l hk]

theorem mem_putAssoc {κ α : Type} [DecidableEq κ] {k : κ} {v : α}
    {l : List (κ × α)} {kv : κ × α} (h : kv ∈ putAssoc k v l) :
    kv = (k, v) ∨ kv ∈ l := by
  induction l with
  | nil => simpa [putAssoc] using h
  | cons kv₀ rest ih =>
      obtain ⟨k₀, v₀⟩ := kv₀
      by_cases h₀ : k₀ = k
      · rw [putAssoc, if_pos h₀] at h
        rcases List.mem_cons.mp h with h1 | h1
        · exact Or.inl h1
        · exact Or.inr (List.mem_cons_of_mem _ h1)
      · rw [putAssoc, if_neg h₀] at h
        rcases List.mem_cons.mp h with h1 | h1
        · exact Or.inr (h1 ▸ List.mem_cons_self _ _)
        · rcases ih h1 with h2 | h2
          · exact Or.inl h2
          · exact Or.inr (List.mem_cons_of_mem _ h2)

/-- C7: updating the card of, or toggling the ignored flag of, a word whose
key is absent from the vocabulary store fails with the not-found error, and
the store given back to the caller is the unchanged input store (the code
rejects before issuing any put). -/
theorem C7_notFound_leaves_store (db : DB) (word language : String)
    (fsrsCard : Option FsrsCard)
    (habs : lookupAssoc (word_key word language) db.vocab = none) :
    updateVocabCard db word language fsrsCard = (db, some StoreErr.notFound) ∧
      toggleIgnoreWord db word language = (db, some StoreErr.notFound) := by
  constructor
  · simp [updateVocabCard, habs]
  · simp [toggleIgnoreWord, habs]

theorem C7_notFound_leaves_store_witness :
    lookupAssoc (word_key "mace" "sq") emptyDB.vocab = none ∧
      updateVocabCard emptyDB "mace" "sq" none = (emptyDB, some StoreErr.notFound) ∧
      toggleIgnoreWord emptyDB "mace" "sq" = (emptyDB, some StoreErr.notFound) := by
  refine ⟨rfl, ?_⟩
  exact C7_notFound_leaves_store emptyDB "mace" "sq" none rfl

/-- C10: every word returned by `getWordsDueForReview` is not ignored, has a
present card with a present due timestamp, and that timestamp is at most
now. -/
theorem C10_due_words_have_cards (db : DB) (language : Option String) (now : Nat)
    (w : VocabWord) (hmem : w ∈ getWordsDueForReview db language now) :
    w.ignored = false ∧
      ∃ card due, w.fsrsCard = some card ∧ card.due = some due ∧ due ≤ now := by
  unfold getWordsDueForReview at hmem
  rw [List.mem_filter] at hmem
  obtain ⟨hmem, hdue⟩ := hmem
  constructor
  · unfold getVocabWords at hmem
    simp only [Bool.false_eq_true, if_false] at hmem
    rw [List.mem_filter] at hmem
    simpa using hmem.2
  · split at hdue
    · simp at hdue
    · rename_i card heq
      split at hdue
      · simp at hdue
      · rename_i d hd
        exact ⟨card, d, heq, hd, by simpa using hdue⟩

theorem C10_due_words_have_cards_witness :
    maceNew ∈ getWordsDueForReview dbMace (some "sq") 10 ∧
      (maceNew.ignored = false ∧
        ∃ card due, maceNew.fsrsCard = some card ∧ card.due = some due ∧ due ≤ 10) :=
  ⟨by decide, C10_due_words_have_cards dbMace (some "sq") 10 maceNew (by decide)⟩

/-- Unfolding of `addVocabWord` on the present-key branch. -/
theorem addVocabWord_existing (db : DB) (nowMs : Nat) (today : Int)
    (word language : String) (context : VocabContext) (fsrsCard : Option FsrsCard)
    (existing : VocabWord)
    (hex : lookupAssoc (word_key word language) db.vocab = some existing) :
    addVocabWord db nowMs today word language context fsrsCard =
      DB.mk
        (putAssoc (word_key word language)
          ({ existing with contexts :=
              if existing.contexts.any (fun c => c.sentenceId == context.sentenceId)
              then existing.contexts else existing.contexts ++ [context] })
          db.vocab)
        db.dailyStats db.wordReviews db.reviewSessions := by
  simp only [addVocabWord, hex]

/-- Unfolding of `addVocabWord` on the absent-key branch. -/
theorem addVocabWord_absent (db : DB) (nowMs : Nat) (today : Int)
    (word language : String) (context : VocabContext) (fsrsCard : Option FsrsCard)
    (hab : lookupAssoc (word_key word language) db.vocab = none) :
    addVocabWord db nowMs today word language context fsrsCard =
      updateDailyStats
        (DB.mk
          (putAssoc (word_key word language)
            ({ word := toLowerCase word, language := language, addedAt := nowMs,
               ignored := false, fsrsCard := fsrsCard, contexts := [context] })
            db.vocab)
          db.dailyStats db.wordReviews db.reviewSessions)
        today language .wordsAdded 1 := by
  simp only [addVocabWord, hab]

/-- C9: adding a context for a word already in the store leaves the stored
word's text, language, creation time, ignored flag and card unchanged (the
initial-card argument is ignored), changes at most the context list by
appending the one new context, leaves every other vocab row unchanged, and
touches neither the daily stats (no `wordsAdded` increment) nor the
append-only stores. -/
theorem C9_add_existing_frame (db : DB) (nowMs : Nat) (today : Int)
    (word language : String) (context : VocabContext) (fsrsCard : Option FsrsCard)
    (existing : VocabWord)
    (hex : lookupAssoc (word_key word language) db.vocab = some existing) :
    (∃ vw, lookupAssoc (word_key word language)
          (addVocabWord db nowMs today word language context fsrsCard).vocab = some vw ∧
        vw.word = existing.word ∧ vw.language = existing.language ∧
        vw.addedAt = existing.addedAt ∧ vw.ignored = existing.ignored ∧
        vw.fsrsCard = existing.fsrsCard ∧
        (vw.contexts = existing.contexts ∨ vw.contexts = existing.contexts ++ [context])) ∧
      (∀ k, k ≠ word_key word language →
        lookupAssoc k (addVocabWord db nowMs today word language context fsrsCard).vocab =
          lookupAssoc k db.vocab) ∧
      (addVocabWord db nowMs today word language context fsrsCard).dailyStats = db.dailyStats ∧
      (addVocabWord db nowMs today word language context fsrsCard).wordReviews = db.wordReviews ∧
      (addVocabWord db nowMs today word language context fsrsCard).reviewSessions =
        db.reviewSessions := by
  rw [addVocabWord_existing db nowMs today word language context fsrsCard existing hex]
  refine ⟨⟨_, lookupAssoc_putAssoc_self _ _ _, rfl, rfl, rfl, rfl, rfl, ?_⟩, ?_, rfl, rfl, rfl⟩
  · by_cases hc : existing.contexts.any (fun c => c.sentenceId == context.sentenceId)
    · simp [hc]
    · simp [hc]
  · intro k hk
    exact lookupAssoc_putAssoc_ne _ _ hk

theorem C9_add_existing_frame_witness :
    lookupAssoc (word_key "mace" "sq") dbMace.vocab = some maceNew ∧
      (addVocabWord dbMace 7 1 "mace" "sq" sampleContext none).dailyStats = [] := by
  refine ⟨by decide, ?_⟩
  exact (C9_add_existing_frame dbMace 7 1 "mace" "sq" sampleContext none maceNew
    (by decide)).2.2.1

/-!  Claim C1: the context-deduplication invariant. -/

theorem mem_of_lookupAssoc {κ α : Type} [DecidableEq κ] {k : κ} {v : α}
    {l : List (κ × α)} (h : lookupAssoc k l = some v) : (k, v) ∈ l := by
  induction l with
  | nil => simp [lookupAssoc] at h
  | cons kv rest ih =>
      obtain ⟨k₀, v₀⟩ := kv
      by_cases h₀ : k₀ = k
      · rw [lookupAssoc, if_pos h₀] at h
        obtain rfl := Option.some.inj h
        exact h₀ ▸ List.mem_cons_self _ _
      · rw [lookupAssoc, if_neg h₀] at h
        exact List.mem_cons_of_mem _ (ih h)

theorem vocab_updateDailyStats (db : DB) (today : Int) (language : String)
    (field : StatField) (increment : Nat) :
    (updateDailyStats db today language field increment).vocab = db.vocab := rfl

theorem nodup_contexts_append (xs : List VocabContext) (c : VocabContext)
    (hnd : (xs.map (fun x => x.sentenceId)).Nodup)
    (hnone : xs.any (fun x => x.sentenceId == c.sentenceId) = false) :
    ((xs ++ [c]).map (fun x => x.sentenceId)).Nodup := by
  rw [List.map_append]
  rw [List.nodup_append]
  refine ⟨hnd, List.nodup_singleton _, ?_⟩
  intro a ha hb
  simp only [List.map_cons, List.map_nil, List.mem_singleton] at hb
  subst hb
  rw [List.mem_map] at ha
  obtain ⟨x, hx, hxa⟩ := ha
  rw [List.any_eq_false] at hnone
  exact hnone x hx (by simp [hxa])

theorem filter_sentenceId_length_one (xs : List VocabContext) (sid : String)
    (hnd : (xs.map (fun x => x.sentenceId)).Nodup)
    (hmem : xs.any (fun x => x.sentenceId == sid) = true) :
    (xs.filter (fun x => x.sentenceId == sid)).length = 1 := by
  have hcount : (xs.filter (fun x => x.sentenceId == sid)).length =
      List.count sid (xs.map (fun x => x.sentenceId)) := by
    rw [← List.countP_eq_length_filter, List.count_eq_countP, List.countP_map]
    rfl
  rw [hcount]
  have hle : List.count sid (xs.map (fun x => x.sentenceId)) ≤ 1 :=
    List.nodup_iff_count_le_one.mp hnd sid
  have hmem' : sid ∈ xs.map (fun x => x.sentenceId) := by
    rw [List.any_eq_true] at hmem
    obtain ⟨x, hx, hxs⟩ := hmem
    rw [List.mem_map]
    exact ⟨x, hx, by simpa using hxs⟩
  have hpos : 0 < List.count sid (xs.map (fun x => x.sentenceId)) :=
    List.count_pos_iff.mpr hmem'
  omega

theorem dedupInv_addVocabWord (db : DB) (nowMs : Nat) (today : Int)
    (word language : String) (context : VocabContext) (fsrsCard : Option FsrsCard)
    (h : DedupInv db) :
    DedupInv (addVocabWord db nowMs today word language context fsrsCard) := by
  cases hl : lookupAssoc (word_key word language) db.vocab with
  | some existing =>
      rw [addVocabWord_existing db nowMs today word language context fsrsCard existing hl]
      intro kv hkv
      rcases mem_putAssoc hkv with rfl | hkv'
      · have hex := h _ (mem_of_lookupAssoc hl)
        by_cases hc : existing.contexts.any (fun c => c.sentenceId == context.sentenceId)
        · simpa [hc] using hex
        · simp only [hc, if_false]
          exact nodup_contexts_append _ _ hex (by simpa using hc)
      · exact h _ hkv'
  | none =>
      rw [addVocabWord_absent db nowMs today word language context fsrsCard hl]
      intro kv hkv
      rw [vocab_updateDailyStats] at hkv
      rcases mem_putAssoc hkv with rfl | hkv'
      · simp
      · exact h _ hkv'

theorem dedupInv_updateVocabCard (db : DB) (word language : String)
    (fsrsCard : Option FsrsCard) (h : DedupInv db) :
    DedupInv (updateVocabCard db word language fsrsCard).1 := by
  unfold updateVocabCard
  cases hl : lookupAssoc (word_key word language) db.vocab with
  | some existing =>
      simp only [hl]
      intro kv hkv
      rcases mem_putAssoc hkv with rfl | hkv'
      · have hex := h _ (mem_of_lookupAssoc hl)
        exact hex
      · exact h _ hkv'
  | none => simpa [hl] using h

theorem dedupInv_toggleIgnoreWord (db : DB) (word language : String)
    (h : DedupInv db) : DedupInv (toggleIgnoreWord db word language).1 := by
  unfold toggleIgnoreWord
  cases hl : lookupAssoc (word_key word language) db.vocab with
  | some existing =>
      simp only [hl]
      intro kv hkv
      rcases mem_putAssoc hkv with rfl | hkv'
      · have hex := h _ (mem_of_lookupAssoc hl)
        exact hex
      · exact h _ hkv'
  | none => simpa [hl] using h

theorem dedupInv_step {db db' : DB} (h : DedupInv db) (hstep : DBStep db db') :
    DedupInv db' := by
  cases hstep with
  | add nowMs today word language context fsrsCard =>
      exact dedupInv_addVocabWord db nowMs today word language context fsrsCard h
  | updateCard word language fsrsCard =>
      exact dedupInv_updateVocabCard db word language fsrsCard h
  | toggleIgnore word language =>
      exact dedupInv_toggleIgnoreWord db word language h
  | review today review =>
      intro kv hkv
      exact h kv (by simpa [saveWordReview, vocab_updateDailyStats] using hkv)
  | session today session =>
      intro kv hkv
      exact h kv (by simpa [saveReviewSession, vocab_updateDailyStats] using hkv)

theorem dedupInv_reachable {db : DB} (h : ReachableDB db) : DedupInv db := by
  induction h with
  | refl => intro kv hkv; simp [emptyDB] at hkv
  | tail _ hstep ih => exact dedupInv_step ih hstep

/-- C1: in every store state reachable through the service interface, no
word's context collection holds two contexts with the same sentence
fingerprint; the invariant survives any further `addVocabWord` call, and
after such a call the touched word is stored with exactly one context
carrying the added context's fingerprint, however often the same fingerprint
is re-submitted. -/
theorem C1_context_dedup (db : DB) (hdb : ReachableDB db) (nowMs : Nat) (today : Int)
    (word language : String) (context : VocabContext) (fsrsCard : Option FsrsCard) :
    DedupInv db ∧
      DedupInv (addVocabWord db nowMs today word language context fsrsCard) ∧
      ∃ vw, lookupAssoc (word_key word language)
            (addVocabWord db nowMs today word language context fsrsCard).vocab = some vw ∧
          (vw.contexts.filter (fun c => c.sentenceId == context.sentenceId)).length = 1 := by
  have hinv : DedupInv db := dedupInv_reachable hdb
  refine ⟨hinv, dedupInv_addVocabWord db nowMs today word language context fsrsCard hinv, ?_⟩
  cases hl : lookupAssoc (word_key word language) db.vocab with
  | some existing =>
      rw [addVocabWord_existing db nowMs today word language context fsrsCard existing hl]
      refine ⟨_, lookupAssoc_putAssoc_self _ _ _, ?_⟩
      have hex := hinv _ (mem_of_lookupAssoc hl)
      by_cases hc : existing.contexts.any (fun c => c.sentenceId == context.sentenceId)
      · rw [if_pos hc]
        exact filter_sentenceId_length_one _ _ hex hc
      · rw [if_neg hc]
        rw [List.filter_append]
        have hnone : existing.contexts.filter (fun c => c.sentenceId == context.sentenceId) = [] := by
          rw [List.filter_eq_nil_iff]
          intro c hcmem
          rw [Bool.not_eq_true, List.any_eq_false] at hc
          exact hc c hcmem
        simp [hnone]
  | none =>
      rw [addVocabWord_absent db nowMs today word language context fsrsCard hl,
        vocab_updateDailyStats]
      refine ⟨_, lookupAssoc_putAssoc_self _ _ _, ?_⟩
      simp

theorem C1_context_dedup_witness :
    ReachableDB emptyDB ∧
      (DedupInv emptyDB ∧
        DedupInv (addVocabWord emptyDB 7 1 "mace" "sq" sampleContext none) ∧
        ∃ vw, lookupAssoc (word_key "mace" "sq")
              (addVocabWord emptyDB 7 1 "mace" "sq" sampleContext none).vocab = some vw ∧
            (vw.contexts.filter (fun c => c.sentenceId == sampleContext.sentenceId)).length = 1) :=
  ⟨Relation.ReflTransGen.refl,
    C1_context_dedup emptyDB Relation.ReflTransGen.refl 7 1 "mace" "sq" sampleContext none⟩

/-!  Claim C6: the streak walk. -/

theorem streakLoop_acc (L : List DailyStats) (e : Int) (acc : Nat) :
    streakLoop L e acc = acc + streakLoop L e 0 := by
  induction L generalizing e acc with
  | nil => simp [streakLoop]
  | cons st rest ih =>
      simp only [streakLoop]
      by_cases h1 : st.date = e ∧ 0 < st.reviewCount
      · rw [if_pos h1, if_pos h1, ih (e - 1) (acc + 1), ih (e - 1) 1]
        omega
      · rw [if_neg h1, if_neg h1]
        by_cases h2 : st.date < e
        · rw [if_pos h2, if_pos h2]
          omega
        · rw [if_neg h2, if_neg h2]
          exact ih e acc

theorem hasReviewOn_cons (st : DailyStats) (rest : List DailyStats) (d : Int) :
    hasReviewOn (st :: rest) d =
      ((st.date == d && decide (0 < st.reviewCount)) || hasReviewOn rest d) := by
  simp [hasReviewOn]

theorem hasReviewOn_eq_false (L : List DailyStats) (d : Int)
    (h : ∀ st ∈ L, st.date = d → st.reviewCount = 0) : hasReviewOn L d = false := by
  unfold hasReviewOn
  rw [List.any_eq_false]
  intro st hst
  by_cases hd : st.date = d
  · simp [hd, h st hst hd]
  · simp [hd]

theorem hasReviewOn_perm {L₁ L₂ : List DailyStats} (h : L₁.Perm L₂) (d : Int) :
    hasReviewOn L₁ d = hasReviewOn L₂ d := by
  unfold hasReviewOn
  cases hb : L₂.any (fun st => st.date == d && decide (0 < st.reviewCount)) with
  | false =>
      rw [List.any_eq_false] at hb ⊢
      intro x hx
      exact hb x (h.mem_iff.mp hx)
  | true =>
      rw [List.any_eq_true] at hb ⊢
      obtain ⟨x, hx, hpx⟩ := hb
      exact ⟨x, h.mem_iff.mpr hx, hpx⟩

theorem streakLoop_char (L : List DailyStats) (e : Int)
    (hsort : L.Pairwise (fun a b => b.date ≤ a.date)) :
    (∀ k : Nat, k < streakLoop L e 0 → hasReviewOn L (e - k) = true) ∧
      hasReviewOn L (e - (streakLoop L e 0 : Nat)) = false := by
  induction L generalizing e with
  | nil =>
      refine ⟨?_, by simp [hasReviewOn, streakLoop]⟩
      intro k hk
      simp [streakLoop] at hk
  | cons st rest ih =>
      rw [List.pairwise_cons] at hsort
      obtain ⟨hhead, hsort'⟩ := hsort
      by_cases h1 : st.date = e ∧ 0 < st.reviewCount
      · obtain ⟨hd, hrc⟩ := h1
        have hloop : streakLoop (st :: rest) e 0 = 1 + streakLoop rest (e - 1) 0 := by
          simp only [streakLoop, if_pos (And.intro hd hrc)]
          rw [streakLoop_acc]
        obtain ⟨ih1, ih2⟩ := ih (e - 1) hsort'
        rw [hloop]
        constructor
        · intro k hk
          rw [hasReviewOn_cons]
          match k with
          | 0 => simp [hd, hrc]
          | j + 1 =>
              have hj : hasReviewOn rest (e - 1 - j) = true := ih1 j (by omega)
              have harith : e - ((j + 1 : Nat) : Int) = e - 1 - (j : Nat) := by push_cast; ring
              rw [harith, hj]
              simp
        · rw [hasReviewOn_cons]
          have harith : e - ((1 + streakLoop rest (e - 1) 0 : Nat) : Int) =
              e - 1 - ((streakLoop rest (e - 1) 0 : Nat) : Int) := by push_cast; ring
          rw [harith]
          have hne : (st.date == (e - 1 - ((streakLoop rest (e - 1) 0 : Nat) : Int))) = false := by
            rw [beq_eq_false_iff_ne]
            omega
          rw [hne, ih2]
          simp
      · have hloop : streakLoop (st :: rest) e 0 =
            if st.date < e then 0 else streakLoop rest e 0 := by
          simp only [streakLoop, if_neg h1]
        by_cases h2 : st.date < e
        · rw [hloop, if_pos h2]
          refine ⟨?_, ?_⟩
          · intro k hk
            omega
          · simp only [Nat.cast_zero, sub_zero]
            refine hasReviewOn_eq_false _ _ ?_
            intro x hx hxd
            rcases List.mem_cons.mp hx with rfl | hx'
            · omega
            · have := hhead x hx'
              omega
        · rw [hloop, if_neg h2]
          obtain ⟨ih1, ih2⟩ := ih e hsort'
          refine ⟨?_, ?_⟩
          · intro k hk
            rw [hasReviewOn_cons, ih1 k hk]
            simp
          · rw [hasReviewOn_cons, ih2]
            have hne : (st.date == (e - ((streakLoop rest e 0 : Nat) : Int))
                && decide (0 < st.reviewCount)) = false := by
              by_cases hz : streakLoop rest e 0 = 0
              · rw [hz]
                simp only [Nat.cast_zero, sub_zero]
                by_cases hde : st.date = e
                · have hrc : ¬0 < st.reviewCount := fun hc => h1 ⟨hde, hc⟩
                  simp [hrc]
                · simp [hde]
              · have hne' : (st.date == (e - ((streakLoop rest e 0 : Nat) : Int))) = false := by
                  rw [beq_eq_false_iff_ne]
                  omega
                rw [hne']
                simp
            rw [hne]
            simp

/-- C6: the streak is characterized as walking calendar days backward from
today: every one of the first `streak` days (today, today minus one, ...) has
a stat row with a positive review count, and the day right after the counted
run (`today - streak`) has none — the walk stops at the first reviewless day
without counting it.  In particular, review stats on days T and T-1 and no
reviews on T-2 give a streak of exactly 2 as of T. -/
theorem C6_streak_walk :
    (∀ (db : DB) (language : Option String) (today : Int),
        (∀ k : Nat, k < getStreak db language today →
          hasReviewOn (getDailyStats db language) (today - k) = true) ∧
        hasReviewOn (getDailyStats db language)
          (today - ((getStreak db language today : Nat) : Int)) = false) ∧
      ∀ (db : DB) (language : Option String) (T : Int),
        hasReviewOn (getDailyStats db language) T = true →
        hasReviewOn (getDailyStats db language) (T - 1) = true →
        hasReviewOn (getDailyStats db language) (T - 2) = false →
        getStreak db language T = 2 := by
  have hmain : ∀ (db : DB) (language : Option String) (today : Int),
      (∀ k : Nat, k < getStreak db language today →
        hasReviewOn (getDailyStats db language) (today - k) = true) ∧
      hasReviewOn (getDailyStats db language)
        (today - ((getStreak db language today : Nat) : Int)) = false := by
    intro db language today
    unfold getStreak
    by_cases hemp : (getDailyStats db language).isEmpty
    · rw [if_pos hemp]
      rw [List.isEmpty_iff] at hemp
      rw [hemp]
      refine ⟨?_, by simp [hasReviewOn]⟩
      intro k hk
      omega
    · rw [if_neg hemp]
      have hperm : ((getDailyStats db language).mergeSort
          (fun a b => decide (b.date ≤ a.date))).Perm (getDailyStats db language) :=
        List.mergeSort_perm _ _
      have hsort : ((getDailyStats db language).mergeSort
          (fun a b => decide (b.date ≤ a.date))).Pairwise (fun a b => b.date ≤ a.date) := by
        have := @List.sorted_mergeSort DailyStats
          (fun a b => decide (b.date ≤ a.date))
          (fun a b c hab hbc => by
            simp only [decide_eq_true_eq] at hab hbc ⊢
            omega)
          (fun a b => by
            rcases Int.le_total b.date a.date with h | h
            · simp [h]
            · simp [h])
          (getDailyStats db language)
        exact this.imp (by intro a b hab; simpa using hab)
      obtain ⟨h1, h2⟩ := streakLoop_char _ today hsort
      refine ⟨?_, ?_⟩
      · intro k hk
        rw [← hasReviewOn_perm hperm]
        exact h1 k hk
      · rw [← hasReviewOn_perm hperm]
        exact h2
  refine ⟨hmain, ?_⟩
  intro db language T hT hT1 hT2
  obtain ⟨h1, h2⟩ := hmain db language T
  rcases hn : getStreak db language T with _ | _ | _ | n
  · rw [hn] at h2
    norm_num at h2
    rw [hT] at h2
    simp at h2
  · rw [hn] at h2
    norm_num at h2
    rw [hT1] at h2
    simp at h2
  · norm_num
  · have h3 := h1 2 (by omega)
    have harith : T - ((2 : Nat) : Int) = T - 2 := by push_cast; ring
    rw [harith, hT2] at h3
    simp at h3

theorem C6_streak_walk_witness :
    (hasReviewOn (getDailyStats dbStreak none) 2 = true ∧
      hasReviewOn (getDailyStats dbStreak none) (2 - 1) = true ∧
      hasReviewOn (getDailyStats dbStreak none) (2 - 2) = false) ∧
      getStreak dbStreak none 2 = 2 :=
  ⟨⟨by decide, by decide, by decide⟩,
    C6_streak_walk.2 dbStreak none 2 (by decide) (by decide) (by decide)⟩

/-!  Claim C2: the new-card cap. -/

theorem bucket_newCandidates {db : DB} {lang : String} {now : Nat} {c : CardInQueue}
    (h : c ∈ newCandidates db lang now) : c.bucket = Bucket.new := by
  unfold newCandidates at h
  rw [List.mem_map] at h
  obtain ⟨w, _, rfl⟩ := h
  rfl

theorem bucket_reviewCandidates {db : DB} {lang : String} {now : Nat} {c : CardInQueue}
    (h : c ∈ reviewCandidates db lang now) : c.bucket = Bucket.review := by
  unfold reviewCandidates at h
  rw [List.mem_map] at h
  obtain ⟨w, _, rfl⟩ := h
  rfl

theorem mem_cappedNewCards {l : List CardInQueue} {c : CardInQueue}
    (h : c ∈ cappedNewCards l) : c ∈ l := by
  unfold cappedNewCards at h
  by_cases hcap : MAX_NEW_CARDS < l.length
  · rw [if_pos hcap] at h
    have h1 : c ∈ sortByContextsDesc l := List.take_subset _ _ h
    exact (List.mergeSort_perm l _).mem_iff.mp h1
  · rwa [if_neg hcap] at h

theorem sortByContextsDesc_perm (l : List CardInQueue) :
    (sortByContextsDesc l).Perm l :=
  List.mergeSort_perm l _

theorem sortByContextsDesc_sorted (l : List CardInQueue) :
    (sortByContextsDesc l).Pairwise
      (fun a b => b.vw.contexts.length ≤ a.vw.contexts.length) := by
  have := @List.sorted_mergeSort CardInQueue
    (fun a b => decide (b.vw.contexts.length ≤ a.vw.contexts.length))
    (fun a b c hab hbc => by
      simp only [decide_eq_true_eq] at hab hbc ⊢
      omega)
    (fun a b => by
      rcases Nat.le_total b.vw.contexts.length a.vw.contexts.length with h | h
      · simp [h]
      · simp [h])
    l
  exact this.imp (by intro a b hab; simpa using hab)

/-- C2: when more than 20 due words are in the New state, the built queue has
exactly 20 new-bucket entries; they are (up to the shuffle's reordering) the
first 20 of the candidates sorted descending by context count, that split of
the candidates loses nothing, and every kept entry has at least as many
contexts as every dropped candidate. -/
theorem C2_new_cap (db : DB) (lang : String) (now : Nat)
    (shuffleNew shuffleReview : List CardInQueue → List CardInQueue)
    (sessionStartTime0 : Option Nat)
    (hshN : ∀ l, (shuffleNew l).Perm l) (hshR : ∀ l, (shuffleReview l).Perm l)
    (hcap : MAX_NEW_CARDS < (newCandidates db lang now).length) :
    ((loadWordsToReview db lang now shuffleNew shuffleReview
        sessionStartTime0).reviewQueue.filter
      (fun c => decide (c.bucket = Bucket.new))).length = MAX_NEW_CARDS ∧
    ((loadWordsToReview db lang now shuffleNew shuffleReview
        sessionStartTime0).reviewQueue.filter
      (fun c => decide (c.bucket = Bucket.new))).Perm
      ((sortByContextsDesc (newCandidates db lang now)).take MAX_NEW_CARDS) ∧
    (((sortByContextsDesc (newCandidates db lang now)).take MAX_NEW_CARDS) ++
      ((sortByContextsDesc (newCandidates db lang now)).drop MAX_NEW_CARDS)).Perm
      (newCandidates db lang now) ∧
    ∀ x ∈ (sortByContextsDesc (newCandidates db lang now)).take MAX_NEW_CARDS,
      ∀ y ∈ (sortByContextsDesc (newCandidates db lang now)).drop MAX_NEW_CARDS,
        y.vw.contexts.length ≤ x.vw.contexts.length := by
  have hqueue : (loadWordsToReview db lang now shuffleNew shuffleReview
      sessionStartTime0).reviewQueue =
      shuffleNew (cappedNewCards (newCandidates db lang now)) ++
        shuffleReview (reviewCandidates db lang now) := rfl
  have hcapped : cappedNewCards (newCandidates db lang now) =
      (sortByContextsDesc (newCandidates db lang now)).take MAX_NEW_CARDS := by
    unfold cappedNewCards
    rw [if_pos hcap]
  have hfilterN : (shuffleNew (cappedNewCards (newCandidates db lang now))).filter
      (fun c => decide (c.bucket = Bucket.new)) =
      shuffleNew (cappedNewCards (newCandidates db lang now)) := by
    rw [List.filter_eq_self]
    intro c hc
    have hc1 : c ∈ cappedNewCards (newCandidates db lang now) :=
      (hshN _).mem_iff.mp hc
    have hc2 := bucket_newCandidates (mem_cappedNewCards hc1)
    simp [hc2]
  have hfilterR : (shuffleReview (reviewCandidates db lang now)).filter
      (fun c => decide (c.bucket = Bucket.new)) = [] := by
    rw [List.filter_eq_nil_iff]
    intro c hc
    have hc1 : c ∈ reviewCandidates db lang now := (hshR _).mem_iff.mp hc
    have hc2 := bucket_reviewCandidates hc1
    simp [hc2]
  have hfilter : (loadWordsToReview db lang now shuffleNew shuffleReview
      sessionStartTime0).reviewQueue.filter (fun c => decide (c.bucket = Bucket.new)) =
      shuffleNew (cappedNewCards (newCandidates db lang now)) := by
    rw [hqueue, List.filter_append, hfilterN, hfilterR, List.append_nil]
  have hpermN : (shuffleNew (cappedNewCards (newCandidates db lang now))).Perm
      ((sortByContextsDesc (newCandidates db lang now)).take MAX_NEW_CARDS) := by
    rw [← hcapped]
    exact hshN _
  refine ⟨?_, ?_, ?_, ?_⟩
  · rw [hfilter, hpermN.length_eq, List.length_take]
    have hlen : (sortByContextsDesc (newCandidates db lang now)).length =
        (newCandidates db lang now).length := (sortByContextsDesc_perm _).length_eq
    omega
  · rw [hfilter]
    exact hpermN
  · rw [List.take_append_drop]
    exact sortByContextsDesc_perm _
  · intro x hx y hy
    have hp := sortByContextsDesc_sorted (newCandidates db lang now)
    rw [← List.take_append_drop MAX_NEW_CARDS
      (sortByContextsDesc (newCandidates db lang now))] at hp
    rw [List.pairwise_append] at hp
    exact hp.2.2 x hx y hy

theorem C2_new_cap_witness :
    MAX_NEW_CARDS < (newCandidates db21 "sq" 5).length ∧
      ((loadWordsToReview db21 "sq" 5 idShuffle idShuffle none).reviewQueue.filter
        (fun c => decide (c.bucket = Bucket.new))).length = MAX_NEW_CARDS :=
  ⟨by decide,
    (C2_new_cap db21 "sq" 5 idShuffle idShuffle none (fun l => List.Perm.refl l)
      (fun l => List.Perm.refl l) (by decide)).1⟩

/-!  Claims C3, C4, C8: the rating handler. -/

theorem handleRating_noFail_spec (s : SessionState) (db : DB) (now : Nat) (today : Int)
    (lang reviewId sessionId : String) (rating : Rating) (c : CardInQueue)
    (existing : VocabWord)
    (hc : s.reviewQueue[s.currentIndex]? = some c)
    (hex : lookupAssoc (word_key c.vw.word c.vw.language) db.vocab = some existing) :
    handleRating noFail now today lang reviewId sessionId rating s db =
      (let card := fsrsReviewWord c.vw.fsrsCard rating now
       let db2 := saveWordReview
          (DB.mk (putAssoc (word_key c.vw.word c.vw.language)
              ({ existing with fsrsCard := some card }) db.vocab)
            db.dailyStats db.wordReviews db.reviewSessions)
          today
          ({ id := reviewId, word := c.vw.word, language := c.vw.language,
             rating := ratingValue rating, date := now, reviewedAt := today })
       let s1 :=
         if rating = Rating.again then
           let pos := min (s.currentIndex + 4) s.reviewQueue.length
           let copy : CardInQueue := ⟨{ c.vw with fsrsCard := some card }, Bucket.learning⟩
           { s with reviewQueue := s.reviewQueue.insertIdx pos copy }
         else s
       let s2 := { s1 with reviewedCount := s.reviewedCount + 1 }
       if s.reviewQueue.length ≤ s.currentIndex + 1 then
         match s.sessionStartTime with
         | some startTime =>
             ⟨{ s2 with sessionComplete := true },
              saveReviewSession db2 today
                ({ id := sessionId, language := lang, date := now,
                   wordCount := s.reviewQueue.length,
                   duration := (now - startTime) / 1000 }), false⟩
         | none => ⟨{ s2 with sessionComplete := true }, db2, false⟩
       else
         ⟨{ s2 with currentIndex := s.currentIndex + 1, contextIndex := 0, showAnswer := false },
          db2, false⟩) := by
  simp only [handleRating, hc, noFail, Bool.false_eq_true, if_false, updateVocabCard, hex]

theorem saveWordReview_reviewSessions (db : DB) (today : Int) (review : WordReview) :
    (saveWordReview db today review).reviewSessions = db.reviewSessions := rfl

theorem saveReviewSession_reviewSessions (db : DB) (today : Int) (session : ReviewSession) :
    (saveReviewSession db today session).reviewSessions =
      db.reviewSessions ++ [session] := rfl

/-- C3 counterexample: rating `Again` on the last (only) card of a started
session completes the session even though the re-inserted learning copy was
just appended: the final queue has 2 entries but the persisted record's
`wordCount` is 1, so the reported count is not the final queue length
including the re-inserted copy. -/
theorem C3_counterexample :
    (handleRating noFail 3000 7 "sq" "r1" "s1" Rating.again sessionOne dbMace).state.sessionComplete
        = true ∧
      (handleRating noFail 3000 7 "sq" "r1" "s1" Rating.again sessionOne
        dbMace).state.reviewQueue.length = 2 ∧
      (handleRating noFail 3000 7 "sq" "r1" "s1" Rating.again sessionOne
        dbMace).db.reviewSessions.map (fun ss => ss.wordCount) = [1] := by
  decide

/-- C3 amended: rating the current card `Again` re-inserts a learning-tagged
copy at `min(currentIndex + 4, queue length)`; when that rating is the final
one (the pointer reaches the old end) the session completes and the persisted
record's `wordCount` is the queue length as captured at the start of the
call — it counts every presentation produced by earlier re-insertions but not
the copy this final `Again` itself inserted, which is never shown. -/
theorem C3_again_requeue (s : SessionState) (db : DB) (now : Nat) (today : Int)
    (lang reviewId sessionId : String) (c : CardInQueue) (existing : VocabWord)
    (hc : s.reviewQueue[s.currentIndex]? = some c)
    (hex : lookupAssoc (word_key c.vw.word c.vw.language) db.vocab = some existing) :
    (handleRating noFail now today lang reviewId sessionId Rating.again s db).state.reviewQueue =
      s.reviewQueue.insertIdx (min (s.currentIndex + 4) s.reviewQueue.length)
        ⟨{ c.vw with fsrsCard := some (fsrsReviewWord c.vw.fsrsCard Rating.again now) },
          Bucket.learning⟩ ∧
    ∀ startTime, s.sessionStartTime = some startTime →
      s.reviewQueue.length ≤ s.currentIndex + 1 →
      (handleRating noFail now today lang reviewId sessionId Rating.again s db).state.sessionComplete
          = true ∧
      (handleRating noFail now today lang reviewId sessionId Rating.again s db).db.reviewSessions =
        db.reviewSessions ++
          [{ id := sessionId, language := lang, date := now,
             wordCount := s.reviewQueue.length, duration := (now - startTime) / 1000 }] := by
  rw [handleRating_noFail_spec s db now today lang reviewId sessionId Rating.again c existing hc hex]
  constructor
  · by_cases hlen : s.reviewQueue.length ≤ s.currentIndex + 1
    · simp only [if_pos hlen]
      cases s.sessionStartTime with
      | some startTime => rfl
      | none => rfl
    · simp only [if_neg hlen]
      rfl
  · intro startTime hstart hlen
    simp only [if_pos hlen, hstart]
    refine ⟨by simp, ?_⟩
    rw [saveReviewSession_reviewSessions, saveWordReview_reviewSessions]

theorem C3_again_requeue_witness :
    sessionOne.reviewQueue[sessionOne.currentIndex]? = some ⟨maceNew, Bucket.new⟩ ∧
      (handleRating noFail 3000 7 "sq" "r1" "s1" Rating.again sessionOne
          dbMace).state.reviewQueue =
        sessionOne.reviewQueue.insertIdx
          (min (sessionOne.currentIndex + 4) sessionOne.reviewQueue.length)
          ⟨{ maceNew with fsrsCard := some (fsrsReviewWord maceNew.fsrsCard Rating.again 3000) },
            Bucket.learning⟩ :=
  ⟨by decide,
    (C3_again_requeue sessionOne dbMace 3000 7 "sq" "r1" "s1" ⟨maceNew, Bucket.new⟩ maceNew
      (by decide) (by decide)).1⟩

/-- C4: the spec's one-word scenario, evaluated on the code.  Starting a
session over the single due New-state word "mace" ("sq") and rating it Good
does transition the card out of New, appends exactly one review event, and
completes the session — but today's reviewCount for "sq" ends at 2, not 1:
`saveWordReview` adds 1 for the review and `saveReviewSession` adds the whole
session word count (1) again on completion. -/
theorem C4_good_rating_scenario :
    ((lookupAssoc (word_key "mace" "sq")
        (handleRating noFail 3000 7 "sq" "r1" "s1" Rating.good c4start dbMace).db.vocab).map
      (fun vw => vw.fsrsCard)) = some (some { state := 1, due := some 3001 }) ∧
      (handleRating noFail 3000 7 "sq" "r1" "s1" Rating.good c4start
        dbMace).db.wordReviews.length = 1 ∧
      (handleRating noFail 3000 7 "sq" "r1" "s1" Rating.good c4start
        dbMace).state.sessionComplete = true ∧
      lookupAssoc ((7 : Int), "sq")
          (handleRating noFail 3000 7 "sq" "r1" "s1" Rating.good c4start dbMace).db.dailyStats =
        some { date := 7, language := "sq", reviewCount := 2, wordsAdded := 0,
               wordsMastered := 0 } := by
  decide

/-- C8 counterexample: with a storage failure at the review-event write, the
handler aborts with the card update already committed (the stored card moved
from New to Learning) while no review event was appended — the call is not
all-or-nothing, even though the session does stay on the same card. -/
theorem C8_counterexample :
    (handleRating failSaveReview 3000 7 "sq" "r1" "s1" Rating.good sessionOne dbMace).aborted
        = true ∧
      (handleRating failSaveReview 3000 7 "sq" "r1" "s1" Rating.good sessionOne dbMace).state
        = sessionOne ∧
      (handleRating failSaveReview 3000 7 "sq" "r1" "s1" Rating.good sessionOne
        dbMace).db.wordReviews = [] ∧
      ((lookupAssoc (word_key "mace" "sq")
          (handleRating failSaveReview 3000 7 "sq" "r1" "s1" Rating.good sessionOne
            dbMace).db.vocab).map (fun vw => vw.fsrsCard))
        = some (some { state := 1, due := some 3001 }) ∧
      ((lookupAssoc (word_key "mace" "sq") dbMace.vocab).map (fun vw => vw.fsrsCard))
        = some (some { state := 0, due := some 5 }) := by
  decide

/-- C8 amended: `rate()` applies its storage effects in program order and a
storage failure aborts the remainder: whatever failed, the queue pointer has
not advanced and the session is not complete (the user is still on the same
card), a failure of the first write (the card update) leaves state and store
fully untouched, and a failure of the second write (the review event) leaves
exactly the card update committed — so the call is atomic only when the very
first write fails. -/
theorem C8_rate_effects_order (s : SessionState) (db : DB) (now : Nat) (today : Int)
    (lang reviewId sessionId : String) (rating : Rating) (c : CardInQueue)
    (hc : s.reviewQueue[s.currentIndex]? = some c)
    (hact : s.sessionComplete = false) :
    (∀ fail : StorageOp → Bool,
      (handleRating fail now today lang reviewId sessionId rating s db).aborted = true →
        (handleRating fail now today lang reviewId sessionId rating s db).state.currentIndex
            = s.currentIndex ∧
        (handleRating fail now today lang reviewId sessionId rating s db).state.sessionComplete
            = false) ∧
    (∀ fail : StorageOp → Bool, fail StorageOp.opUpdateCard = true →
      handleRating fail now today lang reviewId sessionId rating s db = ⟨s, db, true⟩) ∧
    (∀ existing, lookupAssoc (word_key c.vw.word c.vw.language) db.vocab = some existing →
      ∀ fail : StorageOp → Bool,
        fail StorageOp.opUpdateCard = false → fail StorageOp.opSaveReview = true →
        handleRating fail now today lang reviewId sessionId rating s db =
          ⟨s,
            DB.mk (putAssoc (word_key c.vw.word c.vw.language)
                ({ existing with
                    fsrsCard := some (fsrsReviewWord c.vw.fsrsCard rating now) }) db.vocab)
              db.dailyStats db.wordReviews db.reviewSessions,
            true⟩) := by
  refine ⟨?_, ?_, ?_⟩
  · intro fail habort
    simp only [handleRating, hc] at habort ⊢
    by_cases h1 : fail StorageOp.opUpdateCard = true
    · simp only [h1, if_true] at habort ⊢
      exact ⟨by simp, by simp [hact]⟩
    · rw [Bool.not_eq_true] at h1
      simp only [h1, Bool.false_eq_true, if_false] at habort ⊢
      rcases hup : updateVocabCard db c.vw.word c.vw.language
          (some (fsrsReviewWord c.vw.fsrsCard rating now)) with ⟨db1, err⟩
      cases err with
      | some e => exact ⟨by simp, by simp [hact]⟩
      | none =>
          by_cases h2 : fail StorageOp.opSaveReview = true
          · simp only [h2, if_true] at habort ⊢
            exact ⟨by simp, by simp [hact]⟩
          · rw [Bool.not_eq_true] at h2
            simp only [h2, Bool.false_eq_true, if_false] at habort ⊢
            by_cases hlen : s.reviewQueue.length ≤ s.currentIndex + 1
            · simp only [if_pos hlen] at habort ⊢
              cases hst : s.sessionStartTime with
              | some startTime =>
                  by_cases h3 : fail StorageOp.opSaveSession = true
                  · simp only [h3, if_true] at habort ⊢
                    refine ⟨?_, ?_⟩ <;> by_cases hr : rating = Rating.again <;>
                      simp [hr, hact]
                  · rw [Bool.not_eq_true] at h3
                    simp [hup, h2, hlen, hst, h3] at habort
              | none =>
                  simp [hup, h2, hlen, hst] at habort
            · simp [hup, h2, hlen] at habort
  · intro fail h1
    simp only [handleRating, hc, h1, if_true]
  · intro existing hex fail h1 h2
    simp only [handleRating, hc, h1, Bool.false_eq_true, if_false, updateVocabCard, hex, h2,
      if_true]

theorem C8_rate_effects_order_witness :
    sessionOne.reviewQueue[sessionOne.currentIndex]? = some ⟨maceNew, Bucket.new⟩ ∧
      sessionOne.sessionComplete = false ∧
      handleRating (fun _ => true) 3000 7 "sq" "r1" "s1" Rating.good sessionOne dbMace =
        ⟨sessionOne, dbMace, true⟩ :=
  ⟨by decide, rfl,
    (C8_rate_effects_order sessionOne dbMace 3000 7 "sq" "r1" "s1" Rating.good
      ⟨maceNew, Bucket.new⟩ (by decide) rfl).2.1 (fun _ => true) rfl⟩

/-!  Claim C5: mid-session ignore.  First, list and store lemmas. -/

theorem insertIdx_eq_take_append {α : Type} (q : List α) (pos : Nat) (a : α)
    (h : pos ≤ q.length) :
    q.insertIdx pos a = q.take pos ++ a :: q.drop pos := by
  induction q generalizing pos with
  | nil =>
      have hp : pos = 0 := by
        simp only [List.length_nil] at h
        omega
      subst hp
      simp [List.insertIdx]
  | cons x xs ih =>
      cases pos with
      | zero => simp [List.insertIdx]
      | succ p =>
          rw [List.length_cons] at h
          simp only [List.insertIdx_succ_cons, List.take_succ_cons, List.drop_succ_cons,
            List.cons_append]
          rw [ih p (by omega)]

theorem drop_insertIdx_perm {α : Type} (q : List α) (pos j : Nat) (a : α)
    (hj : j ≤ pos) (hpos : pos ≤ q.length) :
    ((q.insertIdx pos a).drop j).Perm (a :: q.drop j) := by
  have htake : (q.take pos).length = pos := by
    rw [List.length_take]
    omega
  have h1 : (q.insertIdx pos a).drop j = (q.take pos).drop j ++ a :: q.drop pos := by
    rw [insertIdx_eq_take_append q pos a hpos, List.drop_append_eq_append_drop, htake,
      Nat.sub_eq_zero_of_le hj, List.drop_zero]
  have h2 : q.drop j = (q.take pos).drop j ++ q.drop pos := by
    conv_lhs => rw [← List.take_append_drop pos q]
    rw [List.drop_append_eq_append_drop, htake, Nat.sub_eq_zero_of_le hj, List.drop_zero]
  rw [h1, h2]
  exact List.perm_middle

theorem drop_eraseIdx_self {α : Type} (q : List α) (i : Nat) (h : i < q.length) :
    (q.eraseIdx i).drop i = q.drop (i + 1) := by
  have htake : (q.take i).length = i := by
    rw [List.length_take]
    omega
  rw [List.eraseIdx_eq_take_drop_succ, List.drop_append_eq_append_drop, htake,
    Nat.sub_self, List.drop_zero]
  have : (q.take i).drop i = [] := by
    apply List.drop_eq_nil_of_le
    omega
  rw [this, List.nil_append]

theorem lookupAssoc_isSome_of_mem {κ α : Type} [DecidableEq κ] {k : κ} {v : α}
    {l : List (κ × α)} (h : (k, v) ∈ l) : (lookupAssoc k l).isSome := by
  induction l with
  | nil => simp at h
  | cons kv rest ih =>
      obtain ⟨k₀, v₀⟩ := kv
      by_cases h₀ : k₀ = k
      · simp [lookupAssoc, h₀]
      · rw [lookupAssoc, if_neg h₀]
        rcases List.mem_cons.mp h with h1 | h1
        · cases h1
          exact absurd rfl h₀
        · exact ih h1

theorem toggleIgnoreWord_vocab_isSome (db : DB) (word language : String) (k : String)
    (h : (lookupAssoc k db.vocab).isSome) :
    (lookupAssoc k (toggleIgnoreWord db word language).1.vocab).isSome := by
  unfold toggleIgnoreWord
  cases hl : lookupAssoc (word_key word language) db.vocab with
  | some existing =>
      simp only [hl]
      exact isSome_lookupAssoc_putAssoc _ _ _ _ h
  | none => simpa [hl] using h

theorem updateVocabCard_vocab_isSome (db : DB) (word language : String)
    (fsrsCard : Option FsrsCard) (k : String)
    (h : (lookupAssoc k db.vocab).isSome) :
    (lookupAssoc k (updateVocabCard db word language fsrsCard).1.vocab).isSome := by
  unfold updateVocabCard
  cases hl : lookupAssoc (word_key word language) db.vocab with
  | some existing =>
      simp only [hl]
      exact isSome_lookupAssoc_putAssoc _ _ _ _ h
  | none => simpa [hl] using h

theorem saveWordReview_vocab (db : DB) (today : Int) (review : WordReview) :
    (saveWordReview db today review).vocab = db.vocab := rfl

theorem saveReviewSession_vocab (db : DB) (today : Int) (session : ReviewSession) :
    (saveReviewSession db today session).vocab = db.vocab := rfl

/-- The store key of a raw vocabulary word. -/
theorem queueKey_mk (w : VocabWord) (b : Bucket) :
    queueKey ⟨w, b⟩ = word_key w.word w.language := rfl

theorem getVocabWords_sublist (db : DB) (language : Option String)
    (includeIgnored : Bool) :
    (getVocabWords db language includeIgnored).Sublist (db.vocab.map Prod.snd) := by
  unfold getVocabWords
  cases language with
  | none =>
      dsimp only
      cases includeIgnored with
      | true =>
          rw [if_pos rfl]
      | false =>
          simp only [Bool.false_eq_true, if_false]
          exact List.filter_sublist _
  | some lg =>
      dsimp only
      by_cases hlg : lg ≠ "all"
      · rw [if_pos hlg]
        cases includeIgnored with
        | true =>
            rw [if_pos rfl]
            exact List.filter_sublist _
        | false =>
            simp only [Bool.false_eq_true, if_false]
            exact (List.filter_sublist _).trans (List.filter_sublist _)
      · rw [if_neg hlg]
        cases includeIgnored with
        | true =>
            rw [if_pos rfl]
        | false =>
            simp only [Bool.false_eq_true, if_false]
            exact List.filter_sublist _

theorem getWordsDueForReview_sublist (db : DB) (language : Option String) (now : Nat) :
    (getWordsDueForReview db language now).Sublist (db.vocab.map Prod.snd) :=
  (List.filter_sublist _).trans (getVocabWords_sublist db language false)

theorem dueWords_keys_nodup (db : DB) (language : Option String) (now : Nat)
    (hck : CanonicalKeys db) :
    ((getWordsDueForReview db language now).map
      (fun w => word_key w.word w.language)).Nodup := by
  have hmap : db.vocab.map (fun kv => word_key kv.2.word kv.2.language) =
      db.vocab.map Prod.fst := by
    apply List.map_congr_left
    intro kv hkv
    exact (hck.1 kv hkv).symm
  have hnd : ((db.vocab.map Prod.snd).map
      (fun w => word_key w.word w.language)).Nodup := by
    rw [List.map_map]
    have : (fun w : VocabWord => word_key w.word w.language) ∘ Prod.snd =
        fun kv : String × VocabWord => word_key kv.2.word kv.2.language := rfl
    rw [this, hmap]
    exact hck.2
  exact ((getWordsDueForReview_sublist db language now).map _).nodup hnd

theorem mem_vocab_of_mem_dueWords (db : DB) (language : Option String) (now : Nat)
    (hck : CanonicalKeys db) (w : VocabWord)
    (hmem : w ∈ getWordsDueForReview db language now) :
    (lookupAssoc (word_key w.word w.language) db.vocab).isSome := by
  have h1 : w ∈ db.vocab.map Prod.snd :=
    (getWordsDueForReview_sublist db language now).subset hmem
  rw [List.mem_map] at h1
  obtain ⟨kv, hkv, hsnd⟩ := h1
  have hkey := hck.1 kv hkv
  have : kv = (word_key w.word w.language, w) := by
    obtain ⟨k, v⟩ := kv
    simp only at hsnd hkey
    rw [hsnd] at hkey ⊢
    rw [hkey]
  rw [this] at hkv
  exact lookupAssoc_isSome_of_mem hkv

theorem handleNextContext_frame (s : SessionState) :
    (handleNextContext s).reviewQueue = s.reviewQueue ∧
      (handleNextContext s).currentIndex = s.currentIndex ∧
      (handleNextContext s).sessionComplete = s.sessionComplete := by
  unfold handleNextContext
  cases s.reviewQueue[s.currentIndex]? with
  | none => exact ⟨rfl, rfl, rfl⟩
  | some c =>
      dsimp only
      by_cases h : s.contextIndex < c.vw.contexts.length - 1
      · rw [if_pos h]
        exact ⟨rfl, rfl, rfl⟩
      · rw [if_neg h]
        exact ⟨rfl, rfl, rfl⟩

theorem handlePrevContext_frame (s : SessionState) :
    (handlePrevContext s).reviewQueue = s.reviewQueue ∧
      (handlePrevContext s).currentIndex = s.currentIndex ∧
      (handlePrevContext s).sessionComplete = s.sessionComplete := by
  unfold handlePrevContext
  by_cases h : 0 < s.contextIndex
  · rw [if_pos h]
    exact ⟨rfl, rfl, rfl⟩
  · rw [if_neg h]
    exact ⟨rfl, rfl, rfl⟩

theorem sessInv_of_frame {s s' : SessionState} {db : DB}
    (hq : s'.reviewQueue = s.reviewQueue) (hi : s'.currentIndex = s.currentIndex)
    (hcomp : s'.sessionComplete = s.sessionComplete)
    (hinv : SessInv (s, db)) : SessInv (s', db) := by
  unfold SessInv SessKeysPresent remaining at hinv ⊢
  simp only [hq, hi, hcomp]
  exact hinv

theorem toggleIgnoreWord_present (db : DB) (word language : String) (existing : VocabWord)
    (hex : lookupAssoc (word_key word language) db.vocab = some existing) :
    toggleIgnoreWord db word language =
      (DB.mk
        (putAssoc (word_key word language)
          ({ existing with ignored := !existing.ignored }) db.vocab)
        db.dailyStats db.wordReviews db.reviewSessions, none) := by
  simp only [toggleIgnoreWord, hex]

theorem handleIgnoreWord_spec (s : SessionState) (db : DB) (now : Nat) (today : Int)
    (lang sessionId : String) (c : CardInQueue) (existing : VocabWord)
    (hc : s.reviewQueue[s.currentIndex]? = some c)
    (hex : lookupAssoc (word_key c.vw.word c.vw.language) db.vocab = some existing) :
    handleIgnoreWord now today lang sessionId s db =
      (let db1 := DB.mk
         (putAssoc (word_key c.vw.word c.vw.language)
           ({ existing with ignored := !existing.ignored }) db.vocab)
         db.dailyStats db.wordReviews db.reviewSessions
       let q1 := s.reviewQueue.eraseIdx s.currentIndex
       let s1 := { s with reviewQueue := q1 }
       if q1.length = 0 then
         match s.sessionStartTime with
         | some startTime =>
             ⟨{ s1 with sessionComplete := true },
              saveReviewSession db1 today
                ({ id := sessionId, language := lang, date := now,
                   wordCount := s.reviewedCount,
                   duration := (now - startTime) / 1000 }), false⟩
         | none => ⟨{ s1 with sessionComplete := true }, db1, false⟩
       else
         ⟨{ s1 with contextIndex := 0, showAnswer := false }, db1, false⟩) := by
  simp only [handleIgnoreWord, hc, toggleIgnoreWord, hex]

theorem handleRating_none (fail : StorageOp → Bool) (now : Nat) (today : Int)
    (lang reviewId sessionId : String) (rating : Rating) (s : SessionState) (db : DB)
    (hc : s.reviewQueue[s.currentIndex]? = none) :
    handleRating fail now today lang reviewId sessionId rating s db = ⟨s, db, false⟩ := by
  simp only [handleRating, hc]

theorem handleIgnoreWord_none (now : Nat) (today : Int) (lang sessionId : String)
    (s : SessionState) (db : DB)
    (hc : s.reviewQueue[s.currentIndex]? = none) :
    handleIgnoreWord now today lang sessionId s db = ⟨s, db, false⟩ := by
  simp only [handleIgnoreWord, hc]

theorem mem_words_of_mem_newCandidates {db : DB} {lang : String} {now : Nat}
    {c : CardInQueue} (h : c ∈ newCandidates db lang now) :
    c.vw ∈ getWordsDueForReview db (some lang) now ∧ isNewCard c.vw = true := by
  unfold newCandidates at h
  rw [List.mem_map] at h
  obtain ⟨w, hw, rfl⟩ := h
  rw [List.mem_filter] at hw
  exact ⟨hw.1, hw.2⟩

theorem mem_words_of_mem_reviewCandidates {db : DB} {lang : String} {now : Nat}
    {c : CardInQueue} (h : c ∈ reviewCandidates db lang now) :
    c.vw ∈ getWordsDueForReview db (some lang) now ∧ isNewCard c.vw = false := by
  unfold reviewCandidates at h
  rw [List.mem_map] at h
  obtain ⟨w, hw, rfl⟩ := h
  rw [List.mem_filter] at hw
  refine ⟨hw.1, ?_⟩
  have := hw.2
  simpa using this

theorem newCandidates_keys (db : DB) (lang : String) (now : Nat) :
    (newCandidates db lang now).map queueKey =
      ((getWordsDueForReview db (some lang) now).filter isNewCard).map
        (fun w => word_key w.word w.language) := by
  unfold newCandidates
  rw [List.map_map]
  rfl

theorem reviewCandidates_keys (db : DB) (lang : String) (now : Nat) :
    (reviewCandidates db lang now).map queueKey =
      ((getWordsDueForReview db (some lang) now).filter (fun w => !isNewCard w)).map
        (fun w => word_key w.word w.language) := by
  unfold reviewCandidates
  rw [List.map_map]
  rfl

theorem newCandidates_keys_nodup (db : DB) (lang : String) (now : Nat)
    (hck : CanonicalKeys db) : ((newCandidates db lang now).map queueKey).Nodup := by
  rw [newCandidates_keys]
  exact ((List.filter_sublist _).map _).nodup (dueWords_keys_nodup db (some lang) now hck)

theorem reviewCandidates_keys_nodup (db : DB) (lang : String) (now : Nat)
    (hck : CanonicalKeys db) : ((reviewCandidates db lang now).map queueKey).Nodup := by
  rw [reviewCandidates_keys]
  exact ((List.filter_sublist _).map _).nodup (dueWords_keys_nodup db (some lang) now hck)

theorem candidates_keys_disjoint (db : DB) (lang : String) (now : Nat)
    (hck : CanonicalKeys db) {a b : CardInQueue}
    (ha : a ∈ newCandidates db lang now) (hb : b ∈ reviewCandidates db lang now) :
    queueKey a ≠ queueKey b := by
  obtain ⟨haw, han⟩ := mem_words_of_mem_newCandidates ha
  obtain ⟨hbw, hbn⟩ := mem_words_of_mem_reviewCandidates hb
  intro hkey
  have hinj := List.inj_on_of_nodup_map (dueWords_keys_nodup db (some lang) now hck)
  have heq : a.vw = b.vw := hinj haw hbw hkey
  rw [heq, hbn] at han
  cases han

theorem sessInv_init (db : DB) (lang : String) (now : Nat)
    (shN shR : List CardInQueue → List CardInQueue) (st0 : Option Nat)
    (hshN : ∀ l, (shN l).Perm l) (hshR : ∀ l, (shR l).Perm l)
    (hck : CanonicalKeys db) :
    SessInv (loadWordsToReview db lang now shN shR st0, db) := by
  have hmemA : ∀ c ∈ shN (cappedNewCards (newCandidates db lang now)),
      c ∈ newCandidates db lang now :=
    fun c hc => mem_cappedNewCards ((hshN _).mem_iff.mp hc)
  have hmemB : ∀ c ∈ shR (reviewCandidates db lang now), c ∈ reviewCandidates db lang now :=
    fun c hc => (hshR _).mem_iff.mp hc
  have hndA : ((shN (cappedNewCards (newCandidates db lang now))).map queueKey).Nodup := by
    have h1 : ((cappedNewCards (newCandidates db lang now)).map queueKey).Nodup := by
      unfold cappedNewCards
      by_cases hcap : MAX_NEW_CARDS < (newCandidates db lang now).length
      · rw [if_pos hcap]
        have h2 : ((sortByContextsDesc (newCandidates db lang now)).map queueKey).Nodup :=
          ((sortByContextsDesc_perm (newCandidates db lang now)).map
            queueKey).nodup_iff.mpr (newCandidates_keys_nodup db lang now hck)
        exact ((List.take_sublist _ _).map _).nodup h2
      · rw [if_neg hcap]
        exact newCandidates_keys_nodup db lang now hck
    exact ((hshN _).map queueKey).nodup_iff.mpr h1
  have hndB : ((shR (reviewCandidates db lang now)).map queueKey).Nodup :=
    ((hshR _).map queueKey).nodup_iff.mpr (reviewCandidates_keys_nodup db lang now hck)
  constructor
  · intro _
    show ((((loadWordsToReview db lang now shN shR st0).reviewQueue).drop 0).map
      queueKey).Nodup
    rw [List.drop_zero]
    show (((shN (cappedNewCards (newCandidates db lang now)) ++
      shR (reviewCandidates db lang now))).map queueKey).Nodup
    rw [List.map_append, List.nodup_append]
    refine ⟨hndA, hndB, ?_⟩
    intro x hxa hxb
    rw [List.mem_map] at hxa hxb
    obtain ⟨a, ha, rfl⟩ := hxa
    obtain ⟨b, hb, hab⟩ := hxb
    exact candidates_keys_disjoint db lang now hck (hmemA a ha) (hmemB b hb) hab.symm
  · intro c hc
    have hc' : c ∈ shN (cappedNewCards (newCandidates db lang now)) ++
        shR (reviewCandidates db lang now) := by
      have : remaining (loadWordsToReview db lang now shN shR st0) =
          shN (cappedNewCards (newCandidates db lang now)) ++
            shR (reviewCandidates db lang now) := by
        unfold remaining
        exact List.drop_zero _
      rwa [this] at hc
    rcases List.mem_append.mp hc' with h | h
    · exact mem_vocab_of_mem_dueWords db (some lang) now hck c.vw
        (mem_words_of_mem_newCandidates (hmemA c h)).1
    · exact mem_vocab_of_mem_dueWords db (some lang) now hck c.vw
        (mem_words_of_mem_reviewCandidates (hmemB c h)).1

theorem handleRating_state_db (s : SessionState) (db : DB) (now : Nat) (today : Int)
    (lang reviewId sessionId : String) (rating : Rating) (c : CardInQueue)
    (existing : VocabWord)
    (hc : s.reviewQueue[s.currentIndex]? = some c)
    (hex : lookupAssoc (word_key c.vw.word c.vw.language) db.vocab = some existing) :
    (handleRating noFail now today lang reviewId sessionId rating s db).state.reviewQueue =
        (if rating = Rating.again then
          s.reviewQueue.insertIdx (min (s.currentIndex + 4) s.reviewQueue.length)
            ⟨{ c.vw with fsrsCard := some (fsrsReviewWord c.vw.fsrsCard rating now) },
              Bucket.learning⟩
         else s.reviewQueue) ∧
      (handleRating noFail now today lang reviewId sessionId rating s db).state.currentIndex =
        (if s.reviewQueue.length ≤ s.currentIndex + 1 then s.currentIndex
         else s.currentIndex + 1) ∧
      (handleRating noFail now today lang reviewId sessionId rating s db).state.sessionComplete =
        (if s.reviewQueue.length ≤ s.currentIndex + 1 then true else s.sessionComplete) ∧
      (handleRating noFail now today lang reviewId sessionId rating s db).db.vocab =
        putAssoc (word_key c.vw.word c.vw.language)
          ({ existing with fsrsCard := some (fsrsReviewWord c.vw.fsrsCard rating now) })
          db.vocab := by
  rw [handleRating_noFail_spec s db now today lang reviewId sessionId rating c existing hc hex]
  by_cases hlen : s.reviewQueue.length ≤ s.currentIndex + 1
  · simp only [if_pos hlen]
    cases s.sessionStartTime with
    | some startTime =>
        by_cases hr : rating = Rating.again
        · simp only [if_pos hr]
          refine ⟨?_, ?_, ?_, ?_⟩ <;> trivial
        · simp only [if_neg hr]
          refine ⟨?_, ?_, ?_, ?_⟩ <;> trivial
    | none =>
        by_cases hr : rating = Rating.again
        · simp only [if_pos hr]
          refine ⟨?_, ?_, ?_, ?_⟩ <;> trivial
        · simp only [if_neg hr]
          refine ⟨?_, ?_, ?_, ?_⟩ <;> trivial
  · simp only [if_neg hlen]
    by_cases hr : rating = Rating.again
    · simp only [if_pos hr]
      refine ⟨?_, ?_, ?_, ?_⟩ <;> trivial
    · simp only [if_neg hr]
      refine ⟨?_, ?_, ?_, ?_⟩ <;> trivial

theorem handleIgnoreWord_state_db (s : SessionState) (db : DB) (now : Nat) (today : Int)
    (lang sessionId : String) (c : CardInQueue) (existing : VocabWord)
    (hc : s.reviewQueue[s.currentIndex]? = some c)
    (hex : lookupAssoc (word_key c.vw.word c.vw.language) db.vocab = some existing) :
    (handleIgnoreWord now today lang sessionId s db).state.reviewQueue =
        s.reviewQueue.eraseIdx s.currentIndex ∧
      (handleIgnoreWord now today lang sessionId s db).state.currentIndex = s.currentIndex ∧
      (handleIgnoreWord now today lang sessionId s db).state.reviewedCount = s.reviewedCount ∧
      (handleIgnoreWord now today lang sessionId s db).aborted = false ∧
      (handleIgnoreWord now today lang sessionId s db).db.vocab =
        putAssoc (word_key c.vw.word c.vw.language)
          ({ existing with ignored := !existing.ignored }) db.vocab := by
  rw [handleIgnoreWord_spec s db now today lang sessionId c existing hc hex]
  by_cases hq0 : (s.reviewQueue.eraseIdx s.currentIndex).length = 0
  · simp only [if_pos hq0]
    cases s.sessionStartTime with
    | some startTime => refine ⟨?_, ?_, ?_, ?_, ?_⟩ <;> trivial
    | none => refine ⟨?_, ?_, ?_, ?_, ?_⟩ <;> trivial
  · simp only [if_neg hq0]
    refine ⟨?_, ?_, ?_, ?_, ?_⟩ <;> trivial

theorem sessInv_rate (s : SessionState) (db : DB) (now : Nat) (today : Int)
    (lang reviewId sessionId : String) (rating : Rating)
    (hact : s.sessionComplete = false) (hinv : SessInv (s, db)) :
    SessInv ((handleRating noFail now today lang reviewId sessionId rating s db).state,
      (handleRating noFail now today lang reviewId sessionId rating s db).db) := by
  cases hc : s.reviewQueue[s.currentIndex]? with
  | none =>
      rw [handleRating_none noFail now today lang reviewId sessionId rating s db hc]
      exact hinv
  | some c =>
      obtain ⟨hlt, hget⟩ := List.getElem?_eq_some.mp hc
      have hcmem : c ∈ remaining s := by
        unfold remaining
        rw [List.drop_eq_getElem_cons hlt, hget]
        exact List.mem_cons_self _ _
      obtain ⟨existing, hex⟩ := Option.isSome_iff_exists.mp (hinv.2 c hcmem)
      obtain ⟨hq, hi, hcomp, hvoc⟩ :=
        handleRating_state_db s db now today lang reviewId sessionId rating c existing hc hex
      have holdrem : remaining s = c :: s.reviewQueue.drop (s.currentIndex + 1) := by
        unfold remaining
        rw [List.drop_eq_getElem_cons hlt, hget]
      have hpres : ∀ e : CardInQueue, (lookupAssoc (queueKey e) db.vocab).isSome →
          (lookupAssoc (queueKey e)
            (handleRating noFail now today lang reviewId sessionId rating s db).db.vocab).isSome := by
        intro e he
        rw [hvoc]
        exact isSome_lookupAssoc_putAssoc _ _ _ _ he
      constructor
      · intro hact'
        rw [hcomp] at hact'
        by_cases hlen : s.reviewQueue.length ≤ s.currentIndex + 1
        · rw [if_pos hlen] at hact'
          cases hact'
        · rw [if_neg hlen] at hact'
          show (((handleRating noFail now today lang reviewId sessionId rating s
            db).state.reviewQueue.drop
              (handleRating noFail now today lang reviewId sessionId rating s
                db).state.currentIndex).map queueKey).Nodup
          rw [hq, hi, if_neg hlen]
          have hold := hinv.1 hact
          rw [holdrem, List.map_cons] at hold
          by_cases hr : rating = Rating.again
          · rw [if_pos hr]
            have hub : min (s.currentIndex + 4) s.reviewQueue.length ≤
                s.reviewQueue.length := Nat.min_le_right _ _
            have hlb : s.currentIndex + 1 ≤ min (s.currentIndex + 4) s.reviewQueue.length := by
              rw [Nat.le_min]
              omega
            have hperm := (drop_insertIdx_perm s.reviewQueue
              (min (s.currentIndex + 4) s.reviewQueue.length) (s.currentIndex + 1)
              ⟨{ c.vw with fsrsCard := some (fsrsReviewWord c.vw.fsrsCard rating now) },
                Bucket.learning⟩ hlb hub).map queueKey
            rw [hperm.nodup_iff, List.map_cons]
            exact hold
          · rw [if_neg hr]
            exact hold.of_cons
      · intro e he
        apply hpres
        unfold remaining at he
        dsimp only at he
        rw [hq, hi] at he
        by_cases hlen : s.reviewQueue.length ≤ s.currentIndex + 1
        · rw [if_pos hlen] at he
          by_cases hr : rating = Rating.again
          · rw [if_pos hr] at he
            have hmin : min (s.currentIndex + 4) s.reviewQueue.length =
                s.reviewQueue.length := Nat.min_eq_right (by omega)
            rw [hmin, List.insertIdx_length_self, List.drop_append_eq_append_drop,
              Nat.sub_eq_zero_of_le (by omega), List.drop_zero] at he
            rcases List.mem_append.mp he with h | h
            · exact hinv.2 e h
            · rw [List.mem_singleton] at h
              subst h
              exact hinv.2 c hcmem
          · rw [if_neg hr] at he
            exact hinv.2 e he
        · rw [if_neg hlen] at he
          by_cases hr : rating = Rating.again
          · rw [if_pos hr] at he
            have hub : min (s.currentIndex + 4) s.reviewQueue.length ≤
                s.reviewQueue.length := Nat.min_le_right _ _
            have hlb : s.currentIndex + 1 ≤ min (s.currentIndex + 4) s.reviewQueue.length := by
              rw [Nat.le_min]
              omega
            have hperm := drop_insertIdx_perm s.reviewQueue
              (min (s.currentIndex + 4) s.reviewQueue.length) (s.currentIndex + 1)
              ⟨{ c.vw with fsrsCard := some (fsrsReviewWord c.vw.fsrsCard rating now) },
                Bucket.learning⟩ hlb hub
            rcases List.mem_cons.mp (hperm.mem_iff.mp he) with h | h
            · subst h
              exact hinv.2 c hcmem
            · refine hinv.2 e ?_
              rw [holdrem]
              exact List.mem_cons_of_mem _ h
          · rw [if_neg hr] at he
            refine hinv.2 e ?_
            rw [holdrem]
            exact List.mem_cons_of_mem _ he

theorem sessInv_ignore (s : SessionState) (db : DB) (now : Nat) (today : Int)
    (lang sessionId : String) (hact : s.sessionComplete = false)
    (hinv : SessInv (s, db)) :
    SessInv ((handleIgnoreWord now today lang sessionId s db).state,
      (handleIgnoreWord now today lang sessionId s db).db) := by
  cases hc : s.reviewQueue[s.currentIndex]? with
  | none =>
      rw [handleIgnoreWord_none now today lang sessionId s db hc]
      exact hinv
  | some c =>
      obtain ⟨hlt, hget⟩ := List.getElem?_eq_some.mp hc
      have hcmem : c ∈ remaining s := by
        unfold remaining
        rw [List.drop_eq_getElem_cons hlt, hget]
        exact List.mem_cons_self _ _
      obtain ⟨existing, hex⟩ := Option.isSome_iff_exists.mp (hinv.2 c hcmem)
      obtain ⟨hq, hi, _, _, hvoc⟩ :=
        handleIgnoreWord_state_db s db now today lang sessionId c existing hc hex
      have holdrem : remaining s = c :: s.reviewQueue.drop (s.currentIndex + 1) := by
        unfold remaining
        rw [List.drop_eq_getElem_cons hlt, hget]
      constructor
      · intro _
        show (((handleIgnoreWord now today lang sessionId s db).state.reviewQueue.drop
            (handleIgnoreWord now today lang sessionId s db).state.currentIndex).map
          queueKey).Nodup
        rw [hq, hi, drop_eraseIdx_self _ _ hlt]
        have hold := hinv.1 hact
        rw [holdrem, List.map_cons] at hold
        exact hold.of_cons
      · intro e he
        rw [hvoc]
        apply isSome_lookupAssoc_putAssoc
        unfold remaining at he
        dsimp only at he
        rw [hq, hi, drop_eraseIdx_self _ _ hlt] at he
        refine hinv.2 e ?_
        rw [holdrem]
        exact List.mem_cons_of_mem _ he

theorem sessInv_step {lang : String} {oracles : (StorageOp → Bool) → Prop}
    {x y : SessionState × DB} (hnf : ∀ f, oracles f → f = noFail)
    (hstep : SessStep lang oracles x y) (hinv : SessInv x) : SessInv y := by
  cases hstep with
  | start s db t hact => exact sessInv_of_frame rfl rfl rfl hinv
  | nextContext s db hact =>
      obtain ⟨h1, h2, h3⟩ := handleNextContext_frame s
      exact sessInv_of_frame h1 h2 h3 hinv
  | prevContext s db hact =>
      obtain ⟨h1, h2, h3⟩ := handlePrevContext_frame s
      exact sessInv_of_frame h1 h2 h3 hinv
  | reveal s db hact => exact sessInv_of_frame rfl rfl rfl hinv
  | rate s db fail now today reviewId sessionId rating hact horacle =>
      rw [hnf fail horacle]
      exact sessInv_rate s db now today lang reviewId sessionId rating hact hinv
  | ignore s db now today sessionId hact =>
      exact sessInv_ignore s db now today lang sessionId hact hinv

theorem sessInv_reachable {lang : String} {oracles : (StorageOp → Bool) → Prop}
    {init x : SessionState × DB} (hnf : ∀ f, oracles f → f = noFail)
    (hinit : SessInv init)
    (hreach : Relation.ReflTransGen (SessStep lang oracles) init x) : SessInv x := by
  induction hreach with
  | refl => exact hinit
  | tail _ hstep ih => exact sessInv_step hnf hstep ih

theorem handleRating_queue_shape (fail : StorageOp → Bool) (s : SessionState) (db : DB)
    (now : Nat) (today : Int) (lang reviewId sessionId : String) (rating : Rating)
    (c : CardInQueue) (hc : s.reviewQueue[s.currentIndex]? = some c) :
    (handleRating fail now today lang reviewId sessionId rating s db).state.reviewQueue =
        s.reviewQueue ∨
      (handleRating fail now today lang reviewId sessionId rating s db).state.reviewQueue =
        s.reviewQueue.insertIdx (min (s.currentIndex + 4) s.reviewQueue.length)
          ⟨{ c.vw with fsrsCard := some (fsrsReviewWord c.vw.fsrsCard rating now) },
            Bucket.learning⟩ := by
  simp only [handleRating, hc]
  by_cases h1 : fail StorageOp.opUpdateCard = true
  · simp [h1]
  · rw [Bool.not_eq_true] at h1
    simp only [h1, Bool.false_eq_true, if_false]
    rcases updateVocabCard db c.vw.word c.vw.language
        (some (fsrsReviewWord c.vw.fsrsCard rating now)) with ⟨db1, err⟩
    cases err with
    | some e => simp
    | none =>
        by_cases h2 : fail StorageOp.opSaveReview = true
        · simp [h2]
        · rw [Bool.not_eq_true] at h2
          simp only [h2, Bool.false_eq_true, if_false]
          by_cases hr : rating = Rating.again <;>
            by_cases hlen : s.reviewQueue.length ≤ s.currentIndex + 1 <;>
            cases hst : s.sessionStartTime <;>
            by_cases h3 : fail StorageOp.opSaveSession = true <;>
            simp [hr, hlen, h3]

theorem handleRating_index_shape (fail : StorageOp → Bool) (s : SessionState) (db : DB)
    (now : Nat) (today : Int) (lang reviewId sessionId : String) (rating : Rating)
    (c : CardInQueue) (hc : s.reviewQueue[s.currentIndex]? = some c) :
    (handleRating fail now today lang reviewId sessionId rating s db).state.currentIndex =
        s.currentIndex ∨
      (handleRating fail now today lang reviewId sessionId rating s db).state.currentIndex =
        s.currentIndex + 1 := by
  simp only [handleRating, hc]
  by_cases h1 : fail StorageOp.opUpdateCard = true
  · simp [h1]
  · rw [Bool.not_eq_true] at h1
    simp only [h1, Bool.false_eq_true, if_false]
    rcases updateVocabCard db c.vw.word c.vw.language
        (some (fsrsReviewWord c.vw.fsrsCard rating now)) with ⟨db1, err⟩
    cases err with
    | some e => simp
    | none =>
        by_cases h2 : fail StorageOp.opSaveReview = true
        · simp [h2]
        · rw [Bool.not_eq_true] at h2
          simp only [h2, Bool.false_eq_true, if_false]
          by_cases hr : rating = Rating.again <;>
            by_cases hlen : s.reviewQueue.length ≤ s.currentIndex + 1 <;>
            cases hst : s.sessionStartTime <;>
            by_cases h3 : fail StorageOp.opSaveSession = true <;>
            simp [hr, hlen, h3]

theorem handleRating_vocab_isSome (fail : StorageOp → Bool) (s : SessionState) (db : DB)
    (now : Nat) (today : Int) (lang reviewId sessionId : String) (rating : Rating)
    (k : String) (h : (lookupAssoc k db.vocab).isSome) :
    (lookupAssoc k
      (handleRating fail now today lang reviewId sessionId rating s db).db.vocab).isSome := by
  cases hc : s.reviewQueue[s.currentIndex]? with
  | none =>
      rw [handleRating_none fail now today lang reviewId sessionId rating s db hc]
      exact h
  | some c =>
      simp only [handleRating, hc]
      by_cases h1 : fail StorageOp.opUpdateCard = true
      · simp only [h1, if_true]
        exact h
      · rw [Bool.not_eq_true] at h1
        simp only [h1, Bool.false_eq_true, if_false]
        rcases hup : updateVocabCard db c.vw.word c.vw.language
            (some (fsrsReviewWord c.vw.fsrsCard rating now)) with ⟨db1, err⟩
        have hdb1 : (lookupAssoc k db1.vocab).isSome := by
          have h2 := updateVocabCard_vocab_isSome db c.vw.word c.vw.language
            (some (fsrsReviewWord c.vw.fsrsCard rating now)) k h
          rw [hup] at h2
          exact h2
        cases err with
        | some e => exact hdb1
        | none =>
            by_cases h2 : fail StorageOp.opSaveReview = true
            · simp only [h2, if_true]
              exact hdb1
            · rw [Bool.not_eq_true] at h2
              simp only [h2, Bool.false_eq_true, if_false]
              by_cases hlen : s.reviewQueue.length ≤ s.currentIndex + 1
              · simp only [if_pos hlen]
                cases s.sessionStartTime with
                | some t =>
                    by_cases h3 : fail StorageOp.opSaveSession = true
                    · simp only [h3, if_true]
                      exact hdb1
                    · simp only [if_neg h3]
                      exact hdb1
                | none => exact hdb1
              · simp only [if_neg hlen]
                exact hdb1

theorem sessKeysPresent_of_frame {s s' : SessionState} {db : DB}
    (hq : s'.reviewQueue = s.reviewQueue) (hi : s'.currentIndex = s.currentIndex)
    (h : SessKeysPresent (s, db)) : SessKeysPresent (s', db) := by
  intro c hc
  refine h c ?_
  unfold remaining at hc ⊢
  dsimp only at hc ⊢
  rw [hq, hi] at hc
  exact hc

theorem sessKeysPresent_rate (fail : StorageOp → Bool) (s : SessionState) (db : DB)
    (now : Nat) (today : Int) (lang reviewId sessionId : String) (rating : Rating)
    (hpres : SessKeysPresent (s, db)) :
    SessKeysPresent
      ((handleRating fail now today lang reviewId sessionId rating s db).state,
       (handleRating fail now today lang reviewId sessionId rating s db).db) := by
  cases hc : s.reviewQueue[s.currentIndex]? with
  | none =>
      rw [handleRating_none fail now today lang reviewId sessionId rating s db hc]
      exact hpres
  | some c =>
      obtain ⟨hlt, hget⟩ := List.getElem?_eq_some.mp hc
      have hcmem : c ∈ remaining s := by
        unfold remaining
        rw [List.drop_eq_getElem_cons hlt, hget]
        exact List.mem_cons_self _ _
      have holdrem : remaining s = c :: s.reviewQueue.drop (s.currentIndex + 1) := by
        unfold remaining
        rw [List.drop_eq_getElem_cons hlt, hget]
      intro e he
      apply handleRating_vocab_isSome fail s db now today lang reviewId sessionId rating
      unfold remaining at he
      dsimp only at he
      rcases handleRating_queue_shape fail s db now today lang reviewId sessionId rating c hc
        with hq | hq <;>
        rcases handleRating_index_shape fail s db now today lang reviewId sessionId rating c hc
          with hi | hi
      · rw [hq, hi] at he
        exact hpres e he
      · rw [hq, hi] at he
        refine hpres e ?_
        rw [holdrem]
        exact List.mem_cons_of_mem _ he
      · rw [hq, hi] at he
        have hperm := drop_insertIdx_perm s.reviewQueue
          (min (s.currentIndex + 4) s.reviewQueue.length) s.currentIndex
          ⟨{ c.vw with fsrsCard := some (fsrsReviewWord c.vw.fsrsCard rating now) },
            Bucket.learning⟩ (by rw [Nat.le_min]; omega) (Nat.min_le_right _ _)
        rcases List.mem_cons.mp (hperm.mem_iff.mp he) with h | h
        · subst h
          exact hpres c hcmem
        · exact hpres e h
      · rw [hq, hi] at he
        have hperm := drop_insertIdx_perm s.reviewQueue
          (min (s.currentIndex + 4) s.reviewQueue.length) (s.currentIndex + 1)
          ⟨{ c.vw with fsrsCard := some (fsrsReviewWord c.vw.fsrsCard rating now) },
            Bucket.learning⟩ (by rw [Nat.le_min]; omega) (Nat.min_le_right _ _)
        rcases List.mem_cons.mp (hperm.mem_iff.mp he) with h | h
        · subst h
          exact hpres c hcmem
        · refine hpres e ?_
          rw [holdrem]
          exact List.mem_cons_of_mem _ h

theorem sessKeysPresent_ignore (s : SessionState) (db : DB) (now : Nat) (today : Int)
    (lang sessionId : String) (hpres : SessKeysPresent (s, db)) :
    SessKeysPresent ((handleIgnoreWord now today lang sessionId s db).state,
      (handleIgnoreWord now today lang sessionId s db).db) := by
  cases hc : s.reviewQueue[s.currentIndex]? with
  | none =>
      rw [handleIgnoreWord_none now today lang sessionId s db hc]
      exact hpres
  | some c =>
      obtain ⟨hlt, hget⟩ := List.getElem?_eq_some.mp hc
      have holdrem : remaining s = c :: s.reviewQueue.drop (s.currentIndex + 1) := by
        unfold remaining
        rw [List.drop_eq_getElem_cons hlt, hget]
      cases hl : lookupAssoc (word_key c.vw.word c.vw.language) db.vocab with
      | none =>
          have heq : handleIgnoreWord now today lang sessionId s db = ⟨s, db, true⟩ := by
            simp only [handleIgnoreWord, hc, toggleIgnoreWord, hl]
          rw [heq]
          exact hpres
      | some existing =>
          obtain ⟨hq, hi, _, _, hvoc⟩ :=
            handleIgnoreWord_state_db s db now today lang sessionId c existing hc hl
          intro e he
          rw [hvoc]
          apply isSome_lookupAssoc_putAssoc
          unfold remaining at he
          dsimp only at he
          rw [hq, hi, drop_eraseIdx_self _ _ hlt] at he
          refine hpres e ?_
          rw [holdrem]
          exact List.mem_cons_of_mem _ he

theorem sessKeysPresent_step {lang : String} {oracles : (StorageOp → Bool) → Prop}
    {x y : SessionState × DB} (hstep : SessStep lang oracles x y)
    (hpres : SessKeysPresent x) : SessKeysPresent y := by
  cases hstep with
  | start s db t hact => exact sessKeysPresent_of_frame rfl rfl hpres
  | nextContext s db hact =>
      obtain ⟨h1, h2, _⟩ := handleNextContext_frame s
      exact sessKeysPresent_of_frame h1 h2 hpres
  | prevContext s db hact =>
      obtain ⟨h1, h2, _⟩ := handlePrevContext_frame s
      exact sessKeysPresent_of_frame h1 h2 hpres
  | reveal s db hact => exact sessKeysPresent_of_frame rfl rfl hpres
  | rate s db fail now today reviewId sessionId rating hact horacle =>
      exact sessKeysPresent_rate fail s db now today lang reviewId sessionId rating hpres
  | ignore s db now today sessionId hact =>
      exact sessKeysPresent_ignore s db now today lang sessionId hpres

theorem sessKeysPresent_reachable {lang : String} {oracles : (StorageOp → Bool) → Prop}
    {init x : SessionState × DB} (hinit : SessKeysPresent init)
    (hreach : Relation.ReflTransGen (SessStep lang oracles) init x) :
    SessKeysPresent x := by
  induction hreach with
  | refl => exact hinit
  | tail _ hstep ih => exact sessKeysPresent_step hstep ih

/-- C5 counterexample: a code-reachable active session falsifies the claim.
Rating the only card Again while the session-record write fails commits the
learning-copy splice without advancing the pointer or completing the session
(the completion flag is set only after that awaited write); the word then
sits twice among the not-yet-visited entries, and the ignore operation
removes only the entry at the current index — the copy re-inserted by the
Again rating of the very word just ignored stays as the next not-yet-visited
entry. -/
theorem C5_counterexample :
    Relation.ReflTransGen (SessStep "sq" anyOracle) (c4start, dbMace)
      (sessionAfterFail, dbAfterFail) ∧
      sessionAfterFail.sessionComplete = false ∧
      (sessionAfterFail.reviewQueue.map queueKey).length = 2 ∧
      (sessionAfterFail.reviewQueue[sessionAfterFail.currentIndex]?).map queueKey =
        some (word_key "mace" "sq") ∧
      ((handleIgnoreWord 5000 8 "sq" "s2" sessionAfterFail dbAfterFail).state.reviewQueue.drop
          (handleIgnoreWord 5000 8 "sq" "s2" sessionAfterFail
            dbAfterFail).state.currentIndex).map queueKey = [word_key "mace" "sq"] ∧
      ((handleIgnoreWord 5000 8 "sq" "s2" sessionAfterFail dbAfterFail).state.reviewQueue.map
        (fun e => e.bucket)) = [Bucket.learning] := by
  refine ⟨?_, ?_⟩
  · exact Relation.ReflTransGen.single
      (SessStep.rate c4start dbMace failSaveSession 3000 7 "r1" "s1" Rating.again
        (by decide) trivial)
  · decide

/-- C5 amended: in every active reachable session, ignoring the current word
succeeds, toggles that word's ignored flag in the store, leaves the reviewed
count untouched, keeps the queue pointer in place, and removes exactly the
queue entry at the current index; when every rate call of the session
completed without a storage failure, that entry is the only remaining
occurrence of the word, so all remaining occurrences of the word — including
any learning copy a previous Again rating re-inserted — are removed.  (After
a rate call aborted by a storage failure this last part can fail: a
re-inserted copy of the ignored word can stay in the queue.) -/
theorem C5_ignore_amended (db0 : DB) (lang : String) (now0 : Nat)
    (shN shR : List CardInQueue → List CardInQueue) (st0 : Option Nat)
    (hshN : ∀ l, (shN l).Perm l) (hshR : ∀ l, (shR l).Perm l)
    (hck : CanonicalKeys db0) (oracles : (StorageOp → Bool) → Prop)
    (s : SessionState) (db : DB)
    (hreach : Relation.ReflTransGen (SessStep lang oracles)
      (loadWordsToReview db0 lang now0 shN shR st0, db0) (s, db))
    (c : CardInQueue) (hc : s.reviewQueue[s.currentIndex]? = some c)
    (hact : s.sessionComplete = false)
    (now : Nat) (today : Int) (sessionId : String) :
    ((handleIgnoreWord now today lang sessionId s db).aborted = false ∧
      (handleIgnoreWord now today lang sessionId s db).state.reviewedCount =
        s.reviewedCount ∧
      (handleIgnoreWord now today lang sessionId s db).state.currentIndex =
        s.currentIndex ∧
      (handleIgnoreWord now today lang sessionId s db).state.reviewQueue =
        s.reviewQueue.eraseIdx s.currentIndex ∧
      ∃ vw, lookupAssoc (word_key c.vw.word c.vw.language) db.vocab = some vw ∧
        lookupAssoc (word_key c.vw.word c.vw.language)
            (handleIgnoreWord now today lang sessionId s db).db.vocab =
          some { vw with ignored := !vw.ignored }) ∧
    ((∀ f, oracles f → f = noFail) →
      ∀ e ∈ (handleIgnoreWord now today lang sessionId s db).state.reviewQueue.drop
          s.currentIndex, queueKey e ≠ queueKey c) := by
  have hpres : SessKeysPresent (s, db) :=
    sessKeysPresent_reachable
      (sessInv_init db0 lang now0 shN shR st0 hshN hshR hck).2 hreach
  obtain ⟨hlt, hget⟩ := List.getElem?_eq_some.mp hc
  have hcmem : c ∈ remaining s := by
    unfold remaining
    rw [List.drop_eq_getElem_cons hlt, hget]
    exact List.mem_cons_self _ _
  obtain ⟨vw, hvw⟩ := Option.isSome_iff_exists.mp (hpres c hcmem)
  obtain ⟨hq, hi, hrc, hab, hvoc⟩ :=
    handleIgnoreWord_state_db s db now today lang sessionId c vw hc hvw
  refine ⟨⟨hab, hrc, hi, hq, vw, hvw, ?_⟩, ?_⟩
  · rw [hvoc]
    exact lookupAssoc_putAssoc_self _ _ _
  · intro hnf e he
    have hinv : SessInv (s, db) :=
      sessInv_reachable hnf (sessInv_init db0 lang now0 shN shR st0 hshN hshR hck) hreach
    rw [hq, drop_eraseIdx_self _ _ hlt] at he
    have hold := hinv.1 hact
    unfold remaining at hold
    rw [List.drop_eq_getElem_cons hlt, hget, List.map_cons, List.nodup_cons] at hold
    intro hkey
    exact hold.1 (hkey ▸ List.mem_map_of_mem queueKey he)

theorem C5_ignore_amended_witness :
    CanonicalKeys dbMace ∧
      (handleIgnoreWord 3000 7 "sq" "s1"
          (loadWordsToReview dbMace "sq" 1000 idShuffle idShuffle none) dbMace).aborted
        = false ∧
      ∀ e ∈ (handleIgnoreWord 3000 7 "sq" "s1"
            (loadWordsToReview dbMace "sq" 1000 idShuffle idShuffle none)
            dbMace).state.reviewQueue.drop
          (loadWordsToReview dbMace "sq" 1000 idShuffle idShuffle none).currentIndex,
        queueKey e ≠ queueKey ⟨maceNew, Bucket.new⟩ := by
  have h := C5_ignore_amended dbMace "sq" 1000 idShuffle idShuffle none
    (fun l => List.Perm.refl l) (fun l => List.Perm.refl l) ⟨by decide, by decide⟩
    noFailOnly (loadWordsToReview dbMace "sq" 1000 idShuffle idShuffle none) dbMace
    Relation.ReflTransGen.refl ⟨maceNew, Bucket.new⟩ (by decide) rfl 3000 7 "s1"
  exact ⟨⟨by decide, by decide⟩, h.1.1, h.2 (fun f hf => hf)⟩

end PageTool
